import Mathlib

/-!
Verification of the truck-pallet scheduler's assignment engine.

The repository contains two near-duplicate solvers:
* `sleper.py` — a 2-column variant: unchecked pair placement (first element of
  each pair to column `0 % n`, second to `1 % n`), exhaustive placement of the
  remaining single items, and a full permutation-search fallback when the
  pair-first path fails.
* `kip.py` — a 4-column variant with per-column capacities and baseline
  pre-loads: greedy capacity-checked pair placement over ascending column
  combinations, exhaustive placement of the remaining single items, and no
  fallback (failure is returned as `None`).

Both files share an identical `pair_containers` function, embedded once below.
Machine integers are embedded as `Nat`: every quantity handled by the program
(lengths, capacities, accumulated loads) is a non-negative integer and no
subtraction occurs.
-/

namespace TruckSched

/-- Python `max(list)` on a list of naturals (all uses have nonempty lists). -/
def maxList (l : List Nat) : Nat := l.foldr max 0

/-- The in-place update `heights[c] += v` on a Python list of column loads. -/
def bump (hts : List Nat) (c v : Nat) : List Nat := hts.set c (hts.getD c 0 + v)

/-- Sequential unchecked application of placements `(itemIdx, colIdx)`:
each placement adds the item's length to its column's load. -/
def applyAll (len : Nat → Nat) (ps : List (Nat × Nat)) (hts : List Nat) : List Nat :=
  ps.foldl (fun h p => bump h p.2 (len p.1)) hts

/-- Sequential checked application of placements: after each addition the
updated column is compared against its capacity `cap col`; exceeding it aborts
with `none` (the `valid = False; break` pattern of both solvers). -/
def addChecked (len cap : Nat → Nat) : List (Nat × Nat) → List Nat → Option (List Nat)
  | [], hts => some hts
  | (idx, col) :: rest, hts =>
    if hts.getD col 0 + len idx > cap col then none
    else addChecked len cap rest (bump hts col (len idx))

/-- The `optimal_max_height = inf; for ...: if valid and current < optimal`
selection loop shared by both solvers: scan candidates left to right, keep the
first candidate whose score is strictly smaller than the best so far. -/
def bestSearch (eval : α → Option (β × Nat)) : List α → Option (β × Nat) → Option (β × Nat)
  | [], best => best
  | x :: xs, best =>
    match eval x with
    | none => bestSearch eval xs best
    | some v =>
      match best with
      | none => bestSearch eval xs (some v)
      | some b => if v.2 < b.2 then bestSearch eval xs (some v) else bestSearch eval xs (some b)

/-- `itertools.product(range n, repeat k)` in its enumeration order
(leftmost coordinate varies slowest). -/
def productCols (n : Nat) : Nat → List (List Nat)
  | 0 => [[]]
  | k + 1 => (List.range n).flatMap (fun c => (productCols n k).map (fun rest => c :: rest))

/-! ### `pair_containers` (identical in `sleper.py` and `kip.py`) -/

/-- Append index `idx` to the group of length `len` in the insertion-ordered
association list `groups`, creating a new group at the end if absent
(a Python dict keyed by length, insertion-ordered). -/
def addIndex : List (Nat × List Nat) → Nat → Nat → List (Nat × List Nat)
  | [], len, idx => [(len, [idx])]
  | (l, is) :: rest, len, idx =>
    if l = len then (l, is ++ [idx]) :: rest else (l, is) :: addIndex rest len idx

/-- The `for idx, length in enumerate(container_lengths)` loop building the
length-to-indices mapping. -/
def buildGroupsAux : List Nat → Nat → List (Nat × List Nat) → List (Nat × List Nat)
  | [], _, gs => gs
  | l :: rest, idx, gs => buildGroupsAux rest (idx + 1) (addIndex gs l idx)

/-- Mapping of lengths to their lists of original indices, in first-occurrence
key order with ascending indices inside each group. -/
def buildGroups (lengths : List Nat) : List (Nat × List Nat) :=
  buildGroupsAux lengths 0 []

/-- The `while len(indices) >= 2: pop two` loop on one length group: pair
consecutive indices from the front, one leftover at most. -/
def pairGroup : List Nat → List (Nat × Nat) × List Nat
  | [] => ([], [])
  | [i] => ([], [i])
  | i :: j :: rest => ((i, j) :: (pairGroup rest).1, (pairGroup rest).2)

/-- `pair_containers` of both source files: group indices by length, pair
within each group, collect the leftovers as the remaining (single) items. -/
def pair_containers (lengths : List Nat) : List (Nat × Nat) × List Nat :=
  ((buildGroups lengths).flatMap (fun g => (pairGroup g.2).1),
   (buildGroups lengths).flatMap (fun g => (pairGroup g.2).2))

/-! ### `sleper.py` — the 2-column solver -/

namespace Sleper

/-- `check_total_area` of `sleper.py`. -/
def check_total_area (container_lengths : List Nat)
    (container_width main_length main_width : Nat) : Bool :=
  (container_lengths.map (fun l => l * container_width)).sum ≤ main_length * main_width

/-- `assign_paired_containers` of `sleper.py`: for each pair, element `i` of
the pair goes to column `i % num_columns`, with no capacity test. -/
def assign_paired_containers (paired : List (Nat × Nat)) (lengths : List Nat)
    (numCols : Nat) : List (Nat × Nat) × List Nat :=
  paired.foldl
    (fun st pair =>
      (st.1 ++ [(pair.1, 0 % numCols), (pair.2, 1 % numCols)],
       bump (bump st.2 (0 % numCols) (lengths.getD pair.1 0))
         (1 % numCols) (lengths.getD pair.2 0)))
    ([], List.replicate numCols 0)

/-- Evaluation of one candidate column choice for the remaining containers:
`none` when some addition exceeds `maxLen`, otherwise the candidate together
with the resulting maximum column load. -/
def remainingEval (remaining lengths : List Nat) (maxLen : Nat) (hts : List Nat)
    (cand : List Nat) : Option (List Nat × Nat) :=
  (addChecked (fun i => lengths.getD i 0) (fun _ => maxLen) (remaining.zip cand) hts).map
    (fun h => (cand, maxList h))

/-- `assign_remaining_containers` of `sleper.py`: brute force over
`itertools.product(range(num_columns), repeat=len(remaining))`, keeping the
first candidate of strictly minimal maximum load; `none` models the
`ValueError` raised when no candidate is valid. -/
def assign_remaining_containers (remaining lengths hts : List Nat)
    (maxLen numCols : Nat) : Option (List (Nat × Nat) × List Nat) :=
  if remaining.isEmpty then some ([], hts)
  else
    match bestSearch (remainingEval remaining lengths maxLen hts)
        (productCols numCols remaining.length) none with
    | none => none
    | some (cand, _) =>
      some (remaining.zip cand,
        applyAll (fun i => lengths.getD i 0) (remaining.zip cand) hts)

/-- `min(range(num_columns), key=lambda c: temp_heights[c])`: the first index
of minimal load. -/
def argminIdx (hts : List Nat) : Nat :=
  (List.range hts.length).foldl
    (fun best c => if hts.getD c 0 < hts.getD best 0 then c else best) 0

/-- The greedy placement of one permutation in the fallback search: each item
in permutation order goes onto the column of least current load; the
permutation is rejected as soon as that column would exceed `maxLen`. -/
def greedyPerm (lengths : List Nat) (maxLen : Nat) :
    List Nat → List Nat → List (Nat × Nat) → Option (List (Nat × Nat) × List Nat)
  | [], hts, acc => some (acc, hts)
  | idx :: rest, hts, acc =>
    let col := argminIdx hts
    if hts.getD col 0 + lengths.getD idx 0 > maxLen then none
    else greedyPerm lengths maxLen rest (bump hts col (lengths.getD idx 0))
      (acc ++ [(idx, col)])

/-- `itertools.permutations` enumeration order: choose each position's element
left to right; the fuel argument is the length of the list. -/
def permsAux : Nat → List Nat → List (List Nat)
  | 0, _ => [[]]
  | fuel + 1, l =>
    (List.range l.length).flatMap
      (fun i => (permsAux fuel (l.eraseIdx i)).map (fun p => l.getD i 0 :: p))

/-- All permutations of a list, in `itertools.permutations` order. -/
def perms (l : List Nat) : List (List Nat) := permsAux l.length l

/-- Evaluation of one permutation in the fallback loop: the greedy assignment
together with its maximum column load, or `none` if rejected. -/
def fallbackEval (lengths : List Nat) (maxLen numCols : Nat) (perm : List Nat) :
    Option (List (Nat × Nat) × Nat) :=
  (greedyPerm lengths maxLen perm (List.replicate numCols 0) []).map
    (fun r => (r.1, maxList r.2))

/-- The `except ValueError` branch of `find_optimal_assignment`: try all
permutations of all container indices, keep the first feasible one of strictly
minimal maximum load, and recompute the column loads from the assignment. -/
def fallbackSearch (lengths : List Nat) (maxLen numCols : Nat) :
    Option (List (Nat × Nat) × List Nat × Nat) :=
  match bestSearch (fallbackEval lengths maxLen numCols)
      (perms (List.range lengths.length)) none with
  | none => none
  | some (asg, m) =>
    some (asg,
      (List.range numCols).map
        (fun c => ((asg.filter (fun p => p.2 == c)).map
          (fun p => lengths.getD p.1 0)).sum),
      m)

/-- The `try` block of `find_optimal_assignment`: paired containers first
(when any), then the remaining containers (when any); `none` models the
`ValueError` escaping the block. -/
def tryPath (paired : List (Nat × Nat)) (remaining lengths : List Nat)
    (maxLen numCols : Nat) : Option (List (Nat × Nat) × List Nat) :=
  let st0 : List (Nat × Nat) × List Nat := ([], List.replicate numCols 0)
  let st1 := if paired.isEmpty then st0 else assign_paired_containers paired lengths numCols
  if remaining.isEmpty then some st1
  else
    match assign_remaining_containers remaining lengths st1.2 maxLen numCols with
    | none => none
    | some (ra, hts) => some (st1.1 ++ ra, hts)

/-- `find_optimal_assignment` of `sleper.py`: the pair-first path, with the
full permutation search as fallback when it raises. -/
def find_optimal_assignment (paired : List (Nat × Nat)) (remaining lengths : List Nat)
    (maxLen numCols : Nat) : Option (List (Nat × Nat) × List Nat × Nat) :=
  match tryPath paired remaining lengths maxLen numCols with
  | some (asg, hts) => some (asg, hts, maxList hts)
  | none => fallbackSearch lengths maxLen numCols

end Sleper

/-! ### `kip.py` — the 4-column solver -/

namespace Kip

/-- One column of `MAIN_CONTAINERS`: its capacity and its baseline pre-load
(the `name` field is presentation-only and omitted). -/
structure Column where
  max_length : Nat
  current_length : Nat
deriving Repr, DecidableEq

/-- `check_total_area` of `kip.py`. -/
def check_total_area (container_lengths : List Nat) (container_width : Nat)
    (main_containers : List Column) : Bool :=
  (container_lengths.map (fun l => l * container_width)).sum ≤
    (main_containers.map (fun mc => mc.max_length * container_width)).sum

/-- `itertools.combinations(range n, 2)` in its enumeration order. -/
def combinations2 (n : Nat) : List (Nat × Nat) :=
  (List.range n).flatMap (fun i => ((List.range n).drop (i + 1)).map (fun j => (i, j)))

/-- The capacity test of the pair-placement loop: placing the pair's first
item on column `pc.1` and its second on column `pc.2` keeps both within their
capacities. -/
def pairFits (lengths : List Nat) (cols : List Column) (hts : List Nat)
    (a b : Nat) (pc : Nat × Nat) : Bool :=
  decide (hts.getD pc.1 0 + lengths.getD a 0 ≤ (cols.getD pc.1 ⟨0, 0⟩).max_length) &&
  decide (hts.getD pc.2 0 + lengths.getD b 0 ≤ (cols.getD pc.2 ⟨0, 0⟩).max_length)

/-- The pair-placement loop of `kip.find_optimal_assignment`: each pair is
committed to the first capacity-satisfying column combination; if none fits
the whole solve returns `None`. -/
def assignPairsLoop (lengths : List Nat) (cols : List Column) :
    List (Nat × Nat) → List (Nat × Nat) → List Nat → Option (List (Nat × Nat) × List Nat)
  | [], asg, hts => some (asg, hts)
  | pair :: rest, asg, hts =>
    match (combinations2 cols.length).find? (pairFits lengths cols hts pair.1 pair.2) with
    | none => none
    | some (c1, c2) =>
      assignPairsLoop lengths cols rest
        (asg ++ [(pair.1, c1), (pair.2, c2)])
        (bump (bump hts c1 (lengths.getD pair.1 0)) c2 (lengths.getD pair.2 0))

/-- Evaluation of one candidate column choice for the remaining containers in
`kip.py` (per-column capacities). -/
def remainingEvalK (remaining lengths : List Nat) (cols : List Column) (hts : List Nat)
    (cand : List Nat) : Option (List Nat × Nat) :=
  (addChecked (fun i => lengths.getD i 0) (fun c => (cols.getD c ⟨0, 0⟩).max_length)
      (remaining.zip cand) hts).map
    (fun h => (cand, maxList h))

/-- `find_optimal_assignment` of `kip.py`: checked pair placement, then brute
force over all column choices for the remaining containers; `none` models the
`return None, None, None` failure paths. -/
def find_optimal_assignment (paired : List (Nat × Nat)) (remaining lengths : List Nat)
    (cols : List Column) : Option (List (Nat × Nat) × List Nat × Nat) :=
  match assignPairsLoop lengths cols paired [] (cols.map (fun c => c.current_length)) with
  | none => none
  | some (asgP, hts) =>
    match bestSearch (remainingEvalK remaining lengths cols hts)
        (productCols cols.length remaining.length) none with
    | none => none
    | some (cand, m) =>
      some (asgP ++ remaining.zip cand,
        applyAll (fun i => lengths.getD i 0) (remaining.zip cand) hts, m)

/-- The shipped 4-column configuration `MAIN_CONTAINERS` of `kip.py`. -/
def MAIN_CONTAINERS : List Column :=
  [⟨7300, 0⟩, ⟨7300, 0⟩, ⟨8200, 0⟩, ⟨8200, 0⟩]

end Kip

/-! ### Derived definitions used by the verification -/

/-- Specification form of the selection loop: the first element of minimal
score, computed right to left. -/
def firstMin : List (β × Nat) → Option (β × Nat)
  | [] => none
  | v :: vs =>
    match firstMin vs with
    | none => some v
    | some w => if w.2 < v.2 then some w else some v

/-- Binary step of `firstMin`: keep the later element only on strict
improvement. -/
def keepBetter (a v : β × Nat) : β × Nat := if v.2 < a.2 then v else a

/-- Lifting of `keepBetter` to an optional accumulator. -/
def keepBetterO (acc : Option (β × Nat)) (v : β × Nat) : Option (β × Nat) :=
  match acc with
  | none => some v
  | some a => some (keepBetter a v)

/-- The element `x` of `enum` is valid, and is the first valid element whose
score attains the minimum over all valid elements: strictly before it every
valid element scores strictly higher, after it at least as high. -/
def IsFirstBest (enum : List α) (valid : α → Bool) (score : α → Nat) (x : α) : Prop :=
  valid x = true ∧ ∃ pre post, enum = pre ++ x :: post ∧
    (∀ y ∈ pre, valid y = true → score x < score y) ∧
    (∀ y ∈ post, valid y = true → score x ≤ score y)

/-- Validity of a candidate column choice in the sense of the specification:
after adding every single item's length to its chosen column, no column's
resulting load exceeds its capacity. -/
def candFeasible (len cap : Nat → Nat) (remaining : List Nat) (hts : List Nat)
    (cand : List Nat) : Bool :=
  decide (∀ c, c < hts.length →
    (applyAll len (remaining.zip cand) hts).getD c 0 ≤ cap c)

/-- The maximum column load after placing a candidate. -/
def candScore (len : Nat → Nat) (remaining : List Nat) (hts : List Nat)
    (cand : List Nat) : Nat :=
  maxList (applyAll len (remaining.zip cand) hts)

/-- The ascending list of positions of `H` holding the value `lv`. -/
def groupOf (H : List Nat) (lv : Nat) : List Nat :=
  (List.range H.length).filter (fun i => H.getD i 0 == lv)

/-- Invariant of the group-building loop after consuming the prefix `H`. -/
def GroupsInv (H : List Nat) (gs : List (Nat × List Nat)) : Prop :=
  (gs.map Prod.fst).Nodup ∧
  (∀ lv, lv ∈ gs.map Prod.fst ↔ lv ∈ H) ∧
  (∀ g ∈ gs, g.2 = groupOf H g.1)

/-! ### Basic lemmas about `bump` and `applyAll` -/

theorem length_bump (hts : List Nat) (c v : Nat) : (bump hts c v).length = hts.length :=
  List.length_set hts c _

theorem getD_bump_self (hts : List Nat) {c : Nat} (h : c < hts.length) (v : Nat) :
    (bump hts c v).getD c 0 = hts.getD c 0 + v := by
  simp [bump, List.getD_eq_getElem?_getD, List.getElem?_set_self h]

theorem getD_bump_ne (hts : List Nat) {c c' : Nat} (h : c ≠ c') (v : Nat) :
    (bump hts c v).getD c' 0 = hts.getD c' 0 := by
  simp [bump, List.getD_eq_getElem?_getD, List.getElem?_set_ne h]

theorem getD_bump_ge (hts : List Nat) (c c' v : Nat) :
    hts.getD c' 0 ≤ (bump hts c v).getD c' 0 := by
  by_cases hc : c = c'
  · subst hc
    by_cases hlt : c < hts.length
    · rw [getD_bump_self hts hlt]; omega
    · simp [bump, List.getD_eq_getElem?_getD, List.getElem?_set, hlt,
        List.getElem?_eq_none (Nat.le_of_not_lt hlt)]
  · rw [getD_bump_ne hts hc]

theorem sum_bump (hts : List Nat) {c : Nat} (h : c < hts.length) (v : Nat) :
    (bump hts c v).sum = hts.sum + v := by
  rw [bump, List.sum_set]
  have hsplit : hts.sum = (hts.take c).sum + hts.getD c 0 + (hts.drop (c + 1)).sum := by
    conv_lhs => rw [← List.take_append_drop c hts]
    rw [List.sum_append, List.drop_eq_getElem_cons h, List.sum_cons,
      List.getD_eq_getElem?_getD, List.getElem?_eq_getElem h]
    simp [Nat.add_assoc]
  simp only [if_pos h]
  omega

theorem applyAll_nil (len : Nat → Nat) (hts : List Nat) : applyAll len [] hts = hts := rfl

theorem applyAll_cons (len : Nat → Nat) (p : Nat × Nat) (ps : List (Nat × Nat))
    (hts : List Nat) :
    applyAll len (p :: ps) hts = applyAll len ps (bump hts p.2 (len p.1)) := rfl

theorem applyAll_append (len : Nat → Nat) (ps qs : List (Nat × Nat)) (hts : List Nat) :
    applyAll len (ps ++ qs) hts = applyAll len qs (applyAll len ps hts) :=
  List.foldl_append _ _ _ _

theorem length_applyAll (len : Nat → Nat) (ps : List (Nat × Nat)) (hts : List Nat) :
    (applyAll len ps hts).length = hts.length := by
  induction ps generalizing hts with
  | nil => rfl
  | cons p ps ih => rw [applyAll_cons, ih, length_bump]

theorem getD_applyAll_ge (len : Nat → Nat) (ps : List (Nat × Nat)) (hts : List Nat)
    (c : Nat) : hts.getD c 0 ≤ (applyAll len ps hts).getD c 0 := by
  induction ps generalizing hts with
  | nil => exact Nat.le_refl _
  | cons p ps ih =>
    rw [applyAll_cons]
    exact Nat.le_trans (getD_bump_ge hts p.2 c (len p.1)) (ih _)

theorem getD_applyAll_untouched (len : Nat → Nat) (ps : List (Nat × Nat)) (hts : List Nat)
    {c : Nat} (h : c ∉ ps.map Prod.snd) :
    (applyAll len ps hts).getD c 0 = hts.getD c 0 := by
  induction ps generalizing hts with
  | nil => rfl
  | cons p ps ih =>
    simp only [List.map_cons, List.mem_cons, not_or] at h
    rw [applyAll_cons, ih _ h.2, getD_bump_ne hts (fun hc => h.1 hc.symm)]

/-- Per-column load formula: applying placements adds to each column exactly
the sum of the lengths of the items placed on it. -/
theorem getD_applyAll (len : Nat → Nat) (ps : List (Nat × Nat)) (hts : List Nat)
    (hcols : ∀ p ∈ ps, p.2 < hts.length) (c : Nat) :
    (applyAll len ps hts).getD c 0 =
      hts.getD c 0 + ((ps.filter (fun p => p.2 == c)).map (fun p => len p.1)).sum := by
  induction ps generalizing hts with
  | nil => simp [applyAll_nil]
  | cons p ps ih =>
    have hp : p.2 < hts.length := hcols p (List.mem_cons_self p ps)
    have hrest : ∀ q ∈ ps, q.2 < (bump hts p.2 (len p.1)).length := by
      intro q hq; rw [length_bump]; exact hcols q (List.mem_cons_of_mem p hq)
    rw [applyAll_cons, ih _ hrest]
    by_cases hc : p.2 = c
    · subst hc
      rw [getD_bump_self hts hp]
      simp [List.filter_cons]
      omega
    · rw [getD_bump_ne hts hc]
      simp [List.filter_cons, hc]

theorem sum_applyAll (len : Nat → Nat) (ps : List (Nat × Nat)) (hts : List Nat)
    (hcols : ∀ p ∈ ps, p.2 < hts.length) :
    (applyAll len ps hts).sum = hts.sum + (ps.map (fun p => len p.1)).sum := by
  induction ps generalizing hts with
  | nil => simp [applyAll_nil]
  | cons p ps ih =>
    have hp : p.2 < hts.length := hcols p (List.mem_cons_self p ps)
    have hrest : ∀ q ∈ ps, q.2 < (bump hts p.2 (len p.1)).length := by
      intro q hq; rw [length_bump]; exact hcols q (List.mem_cons_of_mem p hq)
    rw [applyAll_cons, ih _ hrest, sum_bump hts hp]
    simp
    omega

/-! ### Lemmas about `addChecked` -/

theorem addChecked_some_eq (len cap : Nat → Nat) (ps : List (Nat × Nat)) (hts h : List Nat)
    (hsome : addChecked len cap ps hts = some h) : h = applyAll len ps hts := by
  induction ps generalizing hts with
  | nil => simpa [addChecked, applyAll_nil] using hsome.symm
  | cons p ps ih =>
    rw [addChecked] at hsome
    split at hsome
    · exact absurd hsome (by simp)
    · rw [applyAll_cons]; exact ih _ hsome

/-- The checked application succeeds exactly when every column touched by the
placements ends within its capacity (the intermediate checks are subsumed by
the final ones because loads only grow). -/
theorem addChecked_isSome_iff (len cap : Nat → Nat) (ps : List (Nat × Nat)) (hts : List Nat)
    (hcols : ∀ p ∈ ps, p.2 < hts.length) :
    (addChecked len cap ps hts).isSome = true ↔
      ∀ c ∈ ps.map Prod.snd, (applyAll len ps hts).getD c 0 ≤ cap c := by
  induction ps generalizing hts with
  | nil => simp [addChecked, applyAll_nil]
  | cons p ps ih =>
    obtain ⟨idx, col⟩ := p
    have hp : col < hts.length := hcols (idx, col) (List.mem_cons_self _ ps)
    have hrest : ∀ q ∈ ps, q.2 < (bump hts col (len idx)).length := by
      intro q hq; rw [length_bump]; exact hcols q (List.mem_cons_of_mem _ hq)
    rw [addChecked, applyAll_cons]
    split
    · rename_i hover
      simp only [Option.isSome_none, Bool.false_eq_true, false_iff, not_forall]
      refine ⟨col, ⟨by simp, ?_⟩⟩
      intro hle
      have hge : (bump hts col (len idx)).getD col 0 ≤
          (applyAll len ps (bump hts col (len idx))).getD col 0 :=
        getD_applyAll_ge _ _ _ _
      rw [getD_bump_self hts hp] at hge
      omega
    · rename_i hok
      push_neg at hok
      rw [ih _ hrest]
      constructor
      · intro hall c hc
        simp only [List.map_cons, List.mem_cons] at hc
        rcases hc with hc | hc
        · subst hc
          by_cases hm : c ∈ ps.map Prod.snd
          · exact hall c hm
          · rw [getD_applyAll_untouched _ _ _ hm, getD_bump_self hts hp]
            exact hok
        · exact hall c hc
      · intro hall c hc
        exact hall c (by simp [hc])

theorem addChecked_mono (len cap cap' : Nat → Nat) (hcap : ∀ c, cap c ≤ cap' c)
    (ps : List (Nat × Nat)) (hts h : List Nat)
    (hsome : addChecked len cap ps hts = some h) :
    addChecked len cap' ps hts = some h := by
  induction ps generalizing hts with
  | nil => exact hsome
  | cons p ps ih =>
    rw [addChecked] at hsome ⊢
    split at hsome
    · exact absurd hsome (by simp)
    · rename_i hok
      push_neg at hok
      rw [if_neg (by push_neg; exact Nat.le_trans hok (hcap p.2))]
      exact ih _ hsome

/-! ### Characterization of the first-strict-improvement selection loop -/

theorem keepBetter_pos (a v : β × Nat) (h : v.2 < a.2) : keepBetter a v = v := if_pos h

theorem keepBetter_neg (a v : β × Nat) (h : ¬ v.2 < a.2) : keepBetter a v = a := if_neg h

theorem keepBetter_assoc (a v w : β × Nat) :
    keepBetter (keepBetter a v) w = keepBetter a (keepBetter v w) := by
  by_cases h1 : v.2 < a.2 <;> by_cases h2 : w.2 < v.2 <;> by_cases h3 : w.2 < a.2 <;>
    simp only [keepBetter, h1, h2, h3, if_pos, if_neg, if_true, if_false] <;>
    first | rfl | omega

theorem firstMin_nil : firstMin ([] : List (β × Nat)) = none := rfl

theorem firstMin_cons_none (v : β × Nat) (vs : List (β × Nat))
    (hm : firstMin vs = none) : firstMin (v :: vs) = some v := by
  rw [firstMin, hm]

theorem firstMin_cons_some (v : β × Nat) (vs : List (β × Nat)) (w : β × Nat)
    (hm : firstMin vs = some w) :
    firstMin (v :: vs) = some (keepBetter v w) := by
  rw [firstMin, hm]
  show (if w.2 < v.2 then some w else some v) = some (keepBetter v w)
  by_cases h : w.2 < v.2 <;> simp [keepBetter, h]

theorem firstMin_cons (v : β × Nat) (vs : List (β × Nat)) :
    firstMin (v :: vs) = some (match firstMin vs with
      | none => v
      | some w => keepBetter v w) := by
  cases hm : firstMin vs with
  | none => exact firstMin_cons_none v vs hm
  | some w => exact firstMin_cons_some v vs w hm

theorem bestSearch_eq_firstMin (eval : α → Option (β × Nat)) (xs : List α) :
    ∀ acc, bestSearch eval xs acc =
      match firstMin (xs.filterMap eval) with
      | none => acc
      | some w => keepBetterO acc w := by
  induction xs with
  | nil =>
    intro acc
    simp only [List.filterMap_nil, firstMin]
    rfl
  | cons x xs ih =>
    intro acc
    cases hx : eval x with
    | none =>
      rw [List.filterMap_cons_none hx]
      simp only [bestSearch, hx]
      exact ih acc
    | some v =>
      rw [List.filterMap_cons_some hx, firstMin_cons]
      cases hm : firstMin (List.filterMap eval xs) with
      | none =>
        cases acc with
        | none =>
          simp only [bestSearch, hx]
          rw [ih (some v), hm]
          rfl
        | some a =>
          simp only [bestSearch, hx]
          by_cases hlt : v.2 < a.2
          · rw [if_pos hlt, ih (some v), hm]
            simp [keepBetterO, keepBetter_pos a v hlt]
          · rw [if_neg hlt, ih (some a), hm]
            simp [keepBetterO, keepBetter_neg a v hlt]
      | some w =>
        cases acc with
        | none =>
          simp only [bestSearch, hx]
          rw [ih (some v), hm]
          simp [keepBetterO]
        | some a =>
          simp only [bestSearch, hx]
          by_cases hlt : v.2 < a.2
          · rw [if_pos hlt, ih (some v), hm]
            show some (keepBetter v w) = some (keepBetter a (keepBetter v w))
            rw [← keepBetter_assoc, keepBetter_pos a v hlt]
          · rw [if_neg hlt, ih (some a), hm]
            show some (keepBetter a w) = some (keepBetter a (keepBetter v w))
            rw [← keepBetter_assoc, keepBetter_neg a v hlt]

theorem bestSearch_none_eq_firstMin (eval : α → Option (β × Nat)) (xs : List α) :
    bestSearch eval xs none = firstMin (xs.filterMap eval) := by
  rw [bestSearch_eq_firstMin eval xs none]
  cases firstMin (xs.filterMap eval) <;> rfl

theorem firstMin_eq_none_iff (vs : List (β × Nat)) : firstMin vs = none ↔ vs = [] := by
  cases vs with
  | nil => simp [firstMin_nil]
  | cons v vs => rw [firstMin_cons]; simp

/-- Combined specification of `firstMin`: the returned element decomposes the
list into a strictly-larger-scored prefix and an at-least-as-large suffix. -/
theorem firstMin_spec (vs : List (β × Nat)) :
    ∀ v, firstMin vs = some v → ∃ pre post, vs = pre ++ v :: post ∧
      (∀ w ∈ pre, v.2 < w.2) ∧ (∀ w ∈ post, v.2 ≤ w.2) := by
  induction vs with
  | nil => intro v hv; simp [firstMin_nil] at hv
  | cons x vs ih =>
    intro v hv
    cases hm : firstMin vs with
    | none =>
      have hnil : vs = [] := (firstMin_eq_none_iff vs).1 hm
      subst hnil
      rw [firstMin_cons_none x [] hm, Option.some_inj] at hv
      subst hv
      exact ⟨[], [], rfl, by simp, by simp⟩
    | some u =>
      rw [firstMin_cons_some x vs u hm, Option.some_inj] at hv
      obtain ⟨pre, post, hsplit, hpre, hpost⟩ := ih u hm
      by_cases hlt : u.2 < x.2
      · rw [keepBetter_pos x u hlt] at hv
        subst hv
        refine ⟨x :: pre, post, by rw [hsplit, List.cons_append], ?_, hpost⟩
        intro w hw
        rcases List.mem_cons.1 hw with hw | hw
        · subst hw; exact hlt
        · exact hpre w hw
      · rw [keepBetter_neg x u hlt] at hv
        subst hv
        refine ⟨[], vs, rfl, by simp, ?_⟩
        intro w hw
        rw [hsplit] at hw
        rcases List.mem_append.1 hw with hw | hw
        · exact Nat.le_trans (Nat.le_of_not_lt hlt) (Nat.le_of_lt (hpre w hw))
        · rcases List.mem_cons.1 hw with hw | hw
          · subst hw; exact Nat.le_of_not_lt hlt
          · exact Nat.le_trans (Nat.le_of_not_lt hlt) (hpost w hw)

theorem firstMin_mem (vs : List (β × Nat)) (v : β × Nat) (hv : firstMin vs = some v) :
    v ∈ vs := by
  obtain ⟨pre, post, hsplit, -, -⟩ := firstMin_spec vs v hv
  rw [hsplit]
  exact List.mem_append_right _ (List.mem_cons_self _ _)

theorem firstMin_min (vs : List (β × Nat)) (v : β × Nat) (hv : firstMin vs = some v) :
    ∀ w ∈ vs, v.2 ≤ w.2 := by
  obtain ⟨pre, post, hsplit, hpre, hpost⟩ := firstMin_spec vs v hv
  intro w hw
  rw [hsplit] at hw
  rcases List.mem_append.1 hw with hw | hw
  · exact Nat.le_of_lt (hpre w hw)
  · rcases List.mem_cons.1 hw with hw | hw
    · subst hw; exact Nat.le_refl _
    · exact hpost w hw

/-- The selected element is the first of its (minimal) score: every element
strictly before it in the list has a strictly larger score. -/
theorem firstMin_first (vs : List (β × Nat)) (v : β × Nat) (hv : firstMin vs = some v) :
    ∃ pre post, vs = pre ++ v :: post ∧ ∀ w ∈ pre, v.2 < w.2 := by
  obtain ⟨pre, post, hsplit, hpre, -⟩ := firstMin_spec vs v hv
  exact ⟨pre, post, hsplit, hpre⟩

/-- Decomposing a `filterMap` around a designated output element. -/
theorem filterMap_eq_append_cons (f : α → Option β) (xs : List α) (pre post : List β)
    (v : β) (h : xs.filterMap f = pre ++ v :: post) :
    ∃ xs1 x xs2, xs = xs1 ++ x :: xs2 ∧ f x = some v ∧
      xs1.filterMap f = pre ∧ xs2.filterMap f = post := by
  induction xs generalizing pre with
  | nil => simp at h
  | cons y xs ih =>
    cases hy : f y with
    | none =>
      rw [List.filterMap_cons_none hy] at h
      obtain ⟨xs1, x, xs2, h1, h2, h3, h4⟩ := ih pre h
      exact ⟨y :: xs1, x, xs2, by rw [h1, List.cons_append], h2,
        by rw [List.filterMap_cons_none hy, h3], h4⟩
    | some u =>
      rw [List.filterMap_cons_some hy] at h
      cases pre with
      | nil =>
        simp only [List.nil_append, List.cons_inj_right] at h ⊢
        rw [List.cons_eq_cons] at h
        exact ⟨[], y, xs, rfl, by rw [hy, h.1], rfl, h.2⟩
      | cons p pre =>
        rw [List.cons_append, List.cons_eq_cons] at h
        obtain ⟨xs1, x, xs2, h1, h2, h3, h4⟩ := ih pre h.2
        exact ⟨y :: xs1, x, xs2, by rw [h1, List.cons_append], h2,
          by rw [List.filterMap_cons_some hy, h3, h.1], h4⟩

/-- Master characterization of both solvers' selection loops, assuming the
evaluator acts as a validity filter paired with a score. -/
theorem bestSearch_spec (eval : α → Option (β × Nat)) (enum : List α)
    (valid : α → Bool) (payload : α → β) (score : α → Nat)
    (heval : ∀ x ∈ enum, eval x = if valid x then some (payload x, score x) else none) :
    (bestSearch eval enum none = none ↔ ∀ x ∈ enum, valid x = false) ∧
    (∀ b m, bestSearch eval enum none = some (b, m) →
      ∃ x, IsFirstBest enum valid score x ∧ b = payload x ∧ m = score x) := by
  have hfm : enum.filterMap eval =
      enum.filterMap (fun x => if valid x then some (payload x, score x) else none) :=
    List.filterMap_congr heval
  rw [bestSearch_none_eq_firstMin, hfm]
  constructor
  · rw [firstMin_eq_none_iff, List.filterMap_eq_nil_iff]
    constructor
    · intro hall x hx
      have := hall x hx
      by_cases hv : valid x
      · rw [if_pos hv] at this; exact absurd this (by simp)
      · simpa using hv
    · intro hall x hx
      rw [hall x hx]; simp
  · intro b m hsome
    obtain ⟨pre, post, hsplit, hpre⟩ := firstMin_first _ _ hsome
    have hmin := firstMin_min _ _ hsome
    obtain ⟨xs1, x, xs2, hxs, hx, hxs1, hxs2⟩ :=
      filterMap_eq_append_cons _ enum pre post (b, m) hsplit
    have hxv : valid x = true := by
      by_cases hv : valid x
      · exact hv
      · rw [if_neg hv] at hx; exact absurd hx (by simp)
    rw [if_pos hxv, Option.some_inj] at hx
    refine ⟨x, ⟨hxv, xs1, xs2, hxs, ?_, ?_⟩, congrArg Prod.fst hx.symm,
      congrArg Prod.snd hx.symm⟩
    · intro y hy hyv
      have hmem : (payload y, score y) ∈ pre := by
        rw [← hxs1]
        exact List.mem_filterMap.2 ⟨y, hy, by rw [if_pos hyv]⟩
      have := hpre _ hmem
      have hm2 : m = score x := congrArg Prod.snd hx.symm
      simpa [← hm2] using this
    · intro y hy hyv
      have hyenum : y ∈ enum := by
        rw [hxs]; exact List.mem_append_right _ (List.mem_cons_of_mem _ hy)
      have hmem : (payload y, score y) ∈
          enum.filterMap (fun z => if valid z then some (payload z, score z) else none) :=
        List.mem_filterMap.2 ⟨y, hyenum, by rw [if_pos hyv]⟩
      have := hmin _ hmem
      have hm2 : m = score x := congrArg Prod.snd hx.symm
      simpa [← hm2] using this

end TruckSched

namespace TruckSched

/-! ### Enumeration lemmas: `productCols`, `combinations2`, `find?` -/

theorem length_productCols (n : Nat) : ∀ k, (productCols n k).length = n ^ k := by
  intro k
  induction k with
  | zero => rfl
  | succ k ih =>
    rw [productCols, List.length_flatMap]
    have hmap : (List.map (List.length ∘ fun c => (productCols n k).map (fun rest => c :: rest))
        (List.range n)) = List.map (fun _ => n ^ k) (List.range n) := by
      refine List.map_congr_left ?_
      intro c _
      simp [ih]
    rw [hmap]
    have hconst : ∀ (m c : Nat), (List.map (fun _ => c) (List.range m)).sum = m * c := by
      intro m c
      induction m with
      | zero => simp
      | succ i ihn =>
        rw [List.range_succ, List.map_append, List.sum_append]
        simp [ihn]
        ring
    rw [hconst n (n ^ k), Nat.pow_succ, Nat.mul_comm]

theorem mem_productCols (n : Nat) : ∀ k cand, cand ∈ productCols n k ↔
    cand.length = k ∧ ∀ c ∈ cand, c < n := by
  intro k
  induction k with
  | zero =>
    intro cand
    constructor
    · intro h
      rw [productCols, List.mem_singleton] at h
      subst h
      simp
    · intro ⟨h1, _⟩
      rw [productCols, List.mem_singleton]
      exact List.eq_nil_of_length_eq_zero h1
  | succ k ih =>
    intro cand
    rw [productCols, List.mem_flatMap]
    constructor
    · rintro ⟨c, hc, hcand⟩
      rw [List.mem_map] at hcand
      obtain ⟨rest, hrest, hcons⟩ := hcand
      subst hcons
      obtain ⟨hl, hb⟩ := (ih rest).1 hrest
      refine ⟨by simp [hl], ?_⟩
      intro x hx
      rcases List.mem_cons.1 hx with hx | hx
      · subst hx; exact List.mem_range.1 hc
      · exact hb x hx
    · rintro ⟨hl, hb⟩
      cases cand with
      | nil => simp at hl
      | cons c rest =>
        refine ⟨c, List.mem_range.2 (hb c (List.mem_cons_self _ _)), ?_⟩
        rw [List.mem_map]
        refine ⟨rest, (ih rest).2 ⟨by simpa using hl, ?_⟩, rfl⟩
        intro x hx
        exact hb x (List.mem_cons_of_mem _ hx)

theorem mem_combinations2 (n : Nat) (c : Nat × Nat) :
    c ∈ Kip.combinations2 n ↔ c.1 < c.2 ∧ c.2 < n := by
  obtain ⟨c1, c2⟩ := c
  rw [Kip.combinations2, List.mem_flatMap]
  constructor
  · rintro ⟨i, hi, hmem⟩
    rw [List.mem_map] at hmem
    obtain ⟨j, hj, hpair⟩ := hmem
    rw [Prod.mk.injEq] at hpair
    obtain ⟨h1, h2⟩ := hpair
    subst h1; subst h2
    have hj2 := List.mem_drop_iff_getElem.1 hj
    obtain ⟨k, hk, hkj⟩ := hj2
    rw [List.getElem_range] at hkj
    subst hkj
    simp only [List.length_range] at hk
    omega
  · rintro ⟨h1, h2⟩
    refine ⟨c1, List.mem_range.2 (Nat.lt_trans h1 h2), ?_⟩
    rw [List.mem_map]
    refine ⟨c2, ?_, rfl⟩
    rw [List.mem_drop_iff_getElem]
    refine ⟨c2 - (c1 + 1), by simp [List.length_range]; omega, ?_⟩
    rw [List.getElem_range]
    omega

/-- First-satisfier characterization of `List.find?`. -/
theorem find?_eq_some_first (p : α → Bool) (l : List α) (a : α)
    (h : l.find? p = some a) :
    p a = true ∧ ∃ pre post, l = pre ++ a :: post ∧ ∀ x ∈ pre, p x = false := by
  refine ⟨List.find?_some h, ?_⟩
  induction l with
  | nil => simp [List.find?] at h
  | cons x xs ih =>
    rw [List.find?] at h
    cases hx : p x with
    | true =>
      rw [hx] at h
      simp only [Option.some_inj] at h
      subst h
      exact ⟨[], xs, rfl, by simp⟩
    | false =>
      rw [hx] at h
      simp only at h
      obtain ⟨pre, post, hsplit, hpre⟩ := ih h
      refine ⟨x :: pre, post, by rw [hsplit, List.cons_append], ?_⟩
      intro y hy
      rcases List.mem_cons.1 hy with hy | hy
      · subst hy; exact hx
      · exact hpre y hy

end TruckSched

namespace TruckSched

/-! ### Structural lemmas for the sleper solver -/

theorem argminIdx_lt (hts : List Nat) (h : 0 < hts.length) :
    Sleper.argminIdx hts < hts.length := by
  rw [Sleper.argminIdx]
  have hgen : ∀ (l : List Nat) (acc : Nat), acc < hts.length →
      (∀ c ∈ l, c < hts.length) →
      l.foldl (fun best c => if hts.getD c 0 < hts.getD best 0 then c else best) acc
        < hts.length := by
    intro l
    induction l with
    | nil => intro acc hacc _; exact hacc
    | cons c l ih =>
      intro acc hacc hl
      rw [List.foldl_cons]
      refine ih _ ?_ (fun x hx => hl x (List.mem_cons_of_mem _ hx))
      split
      · exact hl c (List.mem_cons_self _ _)
      · exact hacc
  exact hgen _ 0 h (fun c hc => List.mem_range.1 hc)

/-- Structure of a successful greedy placement: it extends the accumulator by
one placement per item of the permutation, every column chosen is in range,
and the final heights are the unchecked application of the new placements. -/
theorem greedyPerm_some (lengths : List Nat) (maxLen : Nat) :
    ∀ (p hts : List Nat) (acc asg : List (Nat × Nat)) (h : List Nat),
    0 < hts.length →
    Sleper.greedyPerm lengths maxLen p hts acc = some (asg, h) →
    ∃ tail, asg = acc ++ tail ∧ tail.map Prod.fst = p ∧
      (∀ q ∈ tail, q.2 < hts.length) ∧
      h = applyAll (fun i => lengths.getD i 0) tail hts := by
  intro p
  induction p with
  | nil =>
    intro hts acc asg h hpos hrun
    rw [Sleper.greedyPerm] at hrun
    simp only [Option.some_inj, Prod.mk.injEq] at hrun
    exact ⟨[], by simp [hrun.1.symm], rfl, by simp, by simp [applyAll_nil, hrun.2.symm]⟩
  | cons idx rest ih =>
    intro hts acc asg h hpos hrun
    rw [Sleper.greedyPerm] at hrun
    split at hrun
    · exact absurd hrun (by simp)
    · have hlen : 0 < (bump hts (Sleper.argminIdx hts) (lengths.getD idx 0)).length := by
        rw [length_bump]; exact hpos
      obtain ⟨tail, h1, h2, h3, h4⟩ := ih _ _ _ _ hlen hrun
      refine ⟨(idx, Sleper.argminIdx hts) :: tail, ?_, ?_, ?_, ?_⟩
      · rw [h1, List.append_cons, List.append_assoc]
        simp
      · simp [h2]
      · intro q hq
        rcases List.mem_cons.1 hq with hq | hq
        · subst hq; exact argminIdx_lt hts hpos
        · have := h3 q hq
          rwa [length_bump] at this
      · rw [h4, applyAll_cons]

/-- A greedy placement that succeeds under some capacity also succeeds, with
the same result, under any larger capacity: the column choices depend only on
the running loads, never on the capacity. -/
theorem greedyPerm_mono (lengths : List Nat) (maxLen maxLen' : Nat)
    (hle : maxLen ≤ maxLen') :
    ∀ (p hts : List Nat) (acc : List (Nat × Nat)) r,
    Sleper.greedyPerm lengths maxLen p hts acc = some r →
    Sleper.greedyPerm lengths maxLen' p hts acc = some r := by
  intro p
  induction p with
  | nil => intro hts acc r h; exact h
  | cons idx rest ih =>
    intro hts acc r h
    rw [Sleper.greedyPerm] at h ⊢
    split at h
    · exact absurd h (by simp)
    · rename_i hok
      push_neg at hok
      rw [if_neg (by push_neg; exact Nat.le_trans hok hle)]
      exact ih _ _ _ h

/-! ### `perms` enumerates exactly the permutations -/

theorem exists_eraseIdx_of_mem (l : List Nat) (a : Nat) (ha : a ∈ l) :
    ∃ i, i < l.length ∧ l.getD i 0 = a ∧ l.eraseIdx i = l.erase a := by
  induction l with
  | nil => simp at ha
  | cons b l ih =>
    by_cases hb : b = a
    · subst hb
      exact ⟨0, by simp, rfl, by simp [List.erase_cons_head]⟩
    · have hal : a ∈ l := by
        rcases List.mem_cons.1 ha with h | h
        · exact absurd h.symm hb
        · exact h
      obtain ⟨i, h1, h2, h3⟩ := ih hal
      refine ⟨i + 1, by simpa using h1, by simpa using h2, ?_⟩
      rw [List.eraseIdx_cons_succ, h3, List.erase_cons_tail]
      simp [hb]

theorem perm_getD_cons_eraseIdx (l : List Nat) (i : Nat) (hi : i < l.length) :
    l.Perm (l.getD i 0 :: l.eraseIdx i) := by
  induction l generalizing i with
  | nil => simp at hi
  | cons b l ih =>
    cases i with
    | zero => simp
    | succ i =>
      simp only [List.length_cons, Nat.add_lt_add_iff_right] at hi
      have hstep := ih i hi
      have h1 : (b :: l).Perm (b :: (l.getD i 0 :: l.eraseIdx i)) := List.Perm.cons b hstep
      have h2 : (b :: (l.getD i 0 :: l.eraseIdx i)).Perm
          (l.getD i 0 :: b :: l.eraseIdx i) := List.Perm.swap _ _ _
      have h3 := h1.trans h2
      have he : l.getD i 0 :: b :: l.eraseIdx i =
          (b :: l).getD (i + 1) 0 :: (b :: l).eraseIdx (i + 1) := by
        simp [List.eraseIdx_cons_succ, List.getD_cons_succ]
      rwa [he] at h3

theorem mem_permsAux_iff : ∀ (fuel : Nat) (l : List Nat), l.length = fuel →
    ∀ p, p ∈ Sleper.permsAux fuel l ↔ p.Perm l := by
  intro fuel
  induction fuel with
  | zero =>
    intro l hl p
    have hnil : l = [] := List.eq_nil_of_length_eq_zero hl
    subst hnil
    rw [Sleper.permsAux]
    simp [List.perm_nil]
  | succ fuel ih =>
    intro l hl p
    rw [Sleper.permsAux, List.mem_flatMap]
    constructor
    · rintro ⟨i, hi, hp⟩
      rw [List.mem_map] at hp
      obtain ⟨q, hq, hqp⟩ := hp
      subst hqp
      have hil : i < l.length := List.mem_range.1 hi
      have hlen : (l.eraseIdx i).length = fuel := by
        rw [List.length_eraseIdx, if_pos hil, hl]
        omega
      have hqperm := (ih _ hlen q).1 hq
      exact (List.Perm.cons _ hqperm).trans (perm_getD_cons_eraseIdx l i hil).symm
    · intro hp
      cases p with
      | nil =>
        have := hp.length_eq
        simp [hl] at this
      | cons a q =>
        have ha : a ∈ l := hp.mem_iff.1 (List.mem_cons_self _ _)
        obtain ⟨i, hi, hgd, herase⟩ := exists_eraseIdx_of_mem l a ha
        refine ⟨i, List.mem_range.2 hi, ?_⟩
        rw [List.mem_map]
        refine ⟨q, ?_, by rw [hgd]⟩
        have hlen : (l.eraseIdx i).length = fuel := by
          rw [List.length_eraseIdx, if_pos hi, hl]
          omega
        rw [ih _ hlen q, herase]
        have hperm2 : l.Perm (a :: l.erase a) := List.perm_cons_erase ha
        have : (a :: q).Perm (a :: l.erase a) := hp.trans hperm2
        exact this.cons_inv

theorem mem_perms_iff (l p : List Nat) : p ∈ Sleper.perms l ↔ p.Perm l :=
  mem_permsAux_iff l.length l rfl p

/-! ### Structural lemmas for the kip pair-placement loop -/

theorem assignPairsLoop_some (lengths : List Nat) (cols : List Kip.Column) :
    ∀ (ps asg : List (Nat × Nat)) (hts : List Nat) asg' hts',
    Kip.assignPairsLoop lengths cols ps asg hts = some (asg', hts') →
    ∃ tail, asg' = asg ++ tail ∧
      tail.map Prod.fst = ps.flatMap (fun q => [q.1, q.2]) ∧
      (∀ q ∈ tail, q.2 < cols.length) ∧
      hts' = applyAll (fun i => lengths.getD i 0) tail hts := by
  intro ps
  induction ps with
  | nil =>
    intro asg hts asg' hts' hrun
    rw [Kip.assignPairsLoop] at hrun
    simp only [Option.some_inj, Prod.mk.injEq] at hrun
    exact ⟨[], by simp [hrun.1.symm], rfl, by simp, by simp [applyAll_nil, hrun.2.symm]⟩
  | cons pair rest ih =>
    intro asg hts asg' hts' hrun
    rw [Kip.assignPairsLoop] at hrun
    cases hfind : (Kip.combinations2 cols.length).find?
        (Kip.pairFits lengths cols hts pair.1 pair.2) with
    | none => rw [hfind] at hrun; exact absurd hrun (by simp)
    | some pc =>
      obtain ⟨c1, c2⟩ := pc
      rw [hfind] at hrun
      obtain ⟨tail, h1, h2, h3, h4⟩ := ih _ _ _ _ hrun
      have hcm := (mem_combinations2 cols.length (c1, c2)).1
        (List.mem_of_find?_eq_some hfind)
      refine ⟨(pair.1, c1) :: (pair.2, c2) :: tail, ?_, ?_, ?_, ?_⟩
      · rw [h1]
        simp
      · simp [h2]
      · intro q hq
        rcases List.mem_cons.1 hq with hq | hq
        · subst hq; exact Nat.lt_trans hcm.1 hcm.2
        · rcases List.mem_cons.1 hq with hq | hq
          · subst hq; exact hcm.2
          · exact h3 q hq
      · rw [h4, applyAll_cons, applyAll_cons]

/-- The pair-placement loop preserves the per-column capacity invariant. -/
theorem assignPairsLoop_within (lengths : List Nat) (cols : List Kip.Column) :
    ∀ (ps asg : List (Nat × Nat)) (hts : List Nat) asg' hts',
    hts.length = cols.length →
    (∀ c, c < cols.length → hts.getD c 0 ≤ (cols.getD c ⟨0, 0⟩).max_length) →
    Kip.assignPairsLoop lengths cols ps asg hts = some (asg', hts') →
    (∀ c, c < cols.length → hts'.getD c 0 ≤ (cols.getD c ⟨0, 0⟩).max_length) ∧
      hts'.length = cols.length := by
  intro ps
  induction ps with
  | nil =>
    intro asg hts asg' hts' hlen hinv hrun
    rw [Kip.assignPairsLoop] at hrun
    simp only [Option.some_inj, Prod.mk.injEq] at hrun
    rw [← hrun.2]
    exact ⟨hinv, hlen⟩
  | cons pair rest ih =>
    intro asg hts asg' hts' hlen hinv hrun
    rw [Kip.assignPairsLoop] at hrun
    cases hfind : (Kip.combinations2 cols.length).find?
        (Kip.pairFits lengths cols hts pair.1 pair.2) with
    | none => rw [hfind] at hrun; exact absurd hrun (by simp)
    | some pc =>
      obtain ⟨c1, c2⟩ := pc
      rw [hfind] at hrun
      have hcm := (mem_combinations2 cols.length (c1, c2)).1
        (List.mem_of_find?_eq_some hfind)
      have hfits := List.find?_some hfind
      rw [Kip.pairFits, Bool.and_eq_true, decide_eq_true_eq, decide_eq_true_eq] at hfits
      have hne : c1 ≠ c2 := Nat.ne_of_lt hcm.1
      have hc1 : c1 < hts.length := by rw [hlen]; exact Nat.lt_trans hcm.1 hcm.2
      have hc2 : c2 < hts.length := by rw [hlen]; exact hcm.2
      refine ih _ _ _ _ ?_ ?_ hrun
      · rw [length_bump, length_bump, hlen]
      · intro c hc
        by_cases he2 : c = c2
        · subst he2
          rw [getD_bump_self _ (by rw [length_bump]; exact hc2),
            getD_bump_ne hts hne]
          exact hfits.2
        · rw [getD_bump_ne _ (fun h => he2 h.symm)]
          by_cases he1 : c = c1
          · subst he1
            rw [getD_bump_self hts hc1]
            exact hfits.1
          · rw [getD_bump_ne hts (fun h => he1 h.symm)]
            exact hinv c hc

/-- Closed form of sleper's unchecked pair placement. -/
theorem assign_paired_containers_eq (paired : List (Nat × Nat)) (lengths : List Nat)
    (numCols : Nat) :
    Sleper.assign_paired_containers paired lengths numCols =
      (paired.flatMap (fun p => [(p.1, 0 % numCols), (p.2, 1 % numCols)]),
       applyAll (fun i => lengths.getD i 0)
         (paired.flatMap (fun p => [(p.1, 0 % numCols), (p.2, 1 % numCols)]))
         (List.replicate numCols 0)) := by
  rw [Sleper.assign_paired_containers]
  have hgen : ∀ (ps : List (Nat × Nat)) (asg0 : List (Nat × Nat)) (hts0 : List Nat),
      ps.foldl
        (fun st pair =>
          (st.1 ++ [(pair.1, 0 % numCols), (pair.2, 1 % numCols)],
           bump (bump st.2 (0 % numCols) (lengths.getD pair.1 0))
             (1 % numCols) (lengths.getD pair.2 0)))
        (asg0, hts0) =
      (asg0 ++ ps.flatMap (fun p => [(p.1, 0 % numCols), (p.2, 1 % numCols)]),
       applyAll (fun i => lengths.getD i 0)
         (ps.flatMap (fun p => [(p.1, 0 % numCols), (p.2, 1 % numCols)])) hts0) := by
    intro ps
    induction ps with
    | nil => intro asg0 hts0; simp [applyAll_nil]
    | cons p ps ih =>
      intro asg0 hts0
      rw [List.foldl_cons, ih]
      simp [applyAll_cons, bump]
  rw [hgen]
  simp

end TruckSched

namespace TruckSched

/-! ### Further support lemmas -/

theorem bestSearch_some_exists (eval : α → Option (β × Nat)) (xs : List α) (v : β × Nat)
    (h : bestSearch eval xs none = some v) : ∃ x ∈ xs, eval x = some v := by
  rw [bestSearch_none_eq_firstMin] at h
  exact List.mem_filterMap.1 (firstMin_mem _ _ h)

theorem bestSearch_isSome_iff (eval : α → Option (β × Nat)) (xs : List α) :
    (bestSearch eval xs none).isSome = true ↔ ∃ x ∈ xs, (eval x).isSome = true := by
  rw [bestSearch_none_eq_firstMin]
  constructor
  · intro h
    rw [Option.isSome_iff_exists] at h
    obtain ⟨v, hv⟩ := h
    obtain ⟨x, hx, hex⟩ := List.mem_filterMap.1 (firstMin_mem _ _ hv)
    exact ⟨x, hx, by rw [hex]; rfl⟩
  · rintro ⟨x, hx, hex⟩
    rw [Option.isSome_iff_ne_none]
    intro hnone
    rw [firstMin_eq_none_iff, List.filterMap_eq_nil_iff] at hnone
    rw [hnone x hx] at hex
    exact absurd hex (by simp)

theorem list_eq_of_getD (l1 l2 : List Nat) (hlen : l1.length = l2.length)
    (h : ∀ c, c < l1.length → l1.getD c 0 = l2.getD c 0) : l1 = l2 := by
  apply List.ext_getElem hlen
  intro i h1 h2
  have := h i h1
  rwa [List.getD_eq_getElem?_getD, List.getD_eq_getElem?_getD,
    List.getElem?_eq_getElem h1, List.getElem?_eq_getElem h2] at this

theorem getD_map_range (f : Nat → Nat) (n c : Nat) (hc : c < n) :
    ((List.range n).map f).getD c 0 = f c := by
  rw [List.getD_eq_getElem?_getD, List.getElem?_map, List.getElem?_range hc]
  rfl

theorem getD_map_col (g : Kip.Column → Nat) (cols : List Kip.Column) (c : Nat)
    (hc : c < cols.length) :
    (cols.map g).getD c 0 = g (cols.getD c ⟨0, 0⟩) := by
  rw [List.getD_eq_getElem?_getD, List.getD_eq_getElem?_getD, List.getElem?_map,
    List.getElem?_eq_getElem hc]
  rfl

theorem sum_map_getD_range (L : List Nat) :
    ((List.range L.length).map (fun i => L.getD i 0)).sum = L.sum := by
  induction L using List.reverseRecOn with
  | nil => rfl
  | append_singleton l x ih =>
    rw [List.length_append, List.length_singleton, List.range_succ, List.map_append,
      List.sum_append]
    have h1 : (List.range l.length).map (fun i => (l ++ [x]).getD i 0) =
        (List.range l.length).map (fun i => l.getD i 0) := by
      refine List.map_congr_left ?_
      intro i hi
      exact List.getD_append l [x] 0 i (List.mem_range.1 hi)
    have h2 : (l ++ [x]).getD l.length 0 = x := by
      rw [List.getD_eq_getElem?_getD, List.getElem?_append_right (Nat.le_refl _)]
      simp
    rw [h1, ih]
    simp [h2]

theorem addChecked_some_within (len cap : Nat → Nat) (ps : List (Nat × Nat))
    (hts h : List Nat) (hcols : ∀ p ∈ ps, p.2 < hts.length)
    (hinv : ∀ c, c < hts.length → hts.getD c 0 ≤ cap c)
    (hsome : addChecked len cap ps hts = some h) :
    ∀ c, c < hts.length → h.getD c 0 ≤ cap c := by
  have heq := addChecked_some_eq len cap ps hts h hsome
  have hiff := (addChecked_isSome_iff len cap ps hts hcols).1 (by rw [hsome]; rfl)
  intro c hc
  by_cases hm : c ∈ ps.map Prod.snd
  · rw [heq]; exact hiff c hm
  · rw [heq, getD_applyAll_untouched _ _ _ hm]; exact hinv c hc

theorem snd_mem_zip_lt (remaining cand : List Nat) (numCols : Nat)
    (hcand : ∀ c ∈ cand, c < numCols) :
    ∀ q ∈ remaining.zip cand, q.2 < numCols := by
  intro q hq
  exact hcand q.2 (List.of_mem_zip hq).2

/-- Characterization of a successful sleper single-item placement call. -/
theorem assign_remaining_some (remaining lengths hts : List Nat) (maxLen numCols : Nat)
    (ra : List (Nat × Nat)) (hts' : List Nat)
    (h : Sleper.assign_remaining_containers remaining lengths hts maxLen numCols =
      some (ra, hts')) :
    ∃ cand, cand.length = remaining.length ∧ (∀ c ∈ cand, c < numCols) ∧
      ra = remaining.zip cand ∧
      hts' = applyAll (fun i => lengths.getD i 0) (remaining.zip cand) hts := by
  rw [Sleper.assign_remaining_containers] at h
  split at h
  · rename_i hemp
    have hnil : remaining = [] := by
      cases remaining with
      | nil => rfl
      | cons a l => simp [List.isEmpty] at hemp
    subst hnil
    simp only [Option.some_inj, Prod.mk.injEq] at h
    exact ⟨[], rfl, by simp, by simp [h.1.symm], by simp [applyAll_nil, h.2.symm]⟩
  · rename_i hemp
    cases hbs : bestSearch (Sleper.remainingEval remaining lengths maxLen hts)
        (productCols numCols remaining.length) none with
    | none => rw [hbs] at h; exact absurd h (by simp)
    | some v =>
      obtain ⟨cand, m⟩ := v
      rw [hbs] at h
      simp only [Option.some_inj, Prod.mk.injEq] at h
      obtain ⟨x, hx, hex⟩ := bestSearch_some_exists _ _ _ hbs
      rw [Sleper.remainingEval] at hex
      cases hac : addChecked (fun i => lengths.getD i 0) (fun _ => maxLen)
          (remaining.zip x) hts with
      | none => rw [hac] at hex; exact absurd hex (by simp)
      | some hres =>
        rw [hac] at hex
        simp only [Option.map_some', Option.some_inj, Prod.mk.injEq] at hex
        have hxc : x = cand := hex.1
        subst hxc
        obtain ⟨hlen, hb⟩ := (mem_productCols numCols remaining.length x).1 hx
        exact ⟨x, hlen, hb, h.1.symm, h.2.symm⟩

/-- Shape of a successful sleper pair-first path: the assignment covers the
paired items then the remaining items, uses only in-range columns, and the
heights are its unchecked application to zero baselines. -/
theorem tryPath_some_spec (paired : List (Nat × Nat)) (remaining lengths : List Nat)
    (maxLen numCols : Nat) (hpos : 0 < numCols) (asg : List (Nat × Nat)) (hts : List Nat)
    (h : Sleper.tryPath paired remaining lengths maxLen numCols = some (asg, hts)) :
    asg.map Prod.fst = paired.flatMap (fun p => [p.1, p.2]) ++ remaining ∧
    (∀ q ∈ asg, q.2 < numCols) ∧
    hts = applyAll (fun i => lengths.getD i 0) asg (List.replicate numCols 0) := by
  rw [Sleper.tryPath] at h
  have hst1 : (if paired.isEmpty then (([], List.replicate numCols 0) :
        List (Nat × Nat) × List Nat)
      else Sleper.assign_paired_containers paired lengths numCols) =
      (paired.flatMap (fun p => [(p.1, 0 % numCols), (p.2, 1 % numCols)]),
       applyAll (fun i => lengths.getD i 0)
         (paired.flatMap (fun p => [(p.1, 0 % numCols), (p.2, 1 % numCols)]))
         (List.replicate numCols 0)) := by
    split
    · rename_i hemp
      have : paired = [] := by
        cases paired with
        | nil => rfl
        | cons a l => simp [List.isEmpty] at hemp
      subst this
      simp [applyAll_nil]
    · exact assign_paired_containers_eq paired lengths numCols
  rw [hst1] at h
  simp only at h
  have hpairfst : (paired.flatMap
      (fun p => [(p.1, 0 % numCols), (p.2, 1 % numCols)])).map Prod.fst =
      paired.flatMap (fun p => [p.1, p.2]) := by
    rw [List.map_flatMap]
    simp
  have hpaircols : ∀ q ∈ paired.flatMap
      (fun p => [(p.1, 0 % numCols), (p.2, 1 % numCols)]), q.2 < numCols := by
    intro q hq
    rw [List.mem_flatMap] at hq
    obtain ⟨p, _, hp⟩ := hq
    rcases List.mem_cons.1 hp with hp | hp
    · subst hp; exact Nat.mod_lt 0 hpos
    · rcases List.mem_cons.1 hp with hp | hp
      · subst hp; exact Nat.mod_lt 1 hpos
      · simp at hp
  split at h
  · rename_i hemp
    have hrnil : remaining = [] := by
      cases remaining with
      | nil => rfl
      | cons a l => simp [List.isEmpty] at hemp
    subst hrnil
    simp only [Option.some_inj, Prod.mk.injEq] at h
    rw [← h.1, ← h.2]
    exact ⟨by rw [hpairfst]; simp, hpaircols, rfl⟩
  · cases har : Sleper.assign_remaining_containers remaining lengths
        (applyAll (fun i => lengths.getD i 0)
          (paired.flatMap (fun p => [(p.1, 0 % numCols), (p.2, 1 % numCols)]))
          (List.replicate numCols 0)) maxLen numCols with
    | none => rw [har] at h; exact absurd h (by simp)
    | some rv =>
      obtain ⟨ra, hts2⟩ := rv
      rw [har] at h
      simp only [Option.some_inj, Prod.mk.injEq] at h
      obtain ⟨cand, hclen, hcb, hra, hra2⟩ :=
        assign_remaining_some _ _ _ _ _ _ _ har
      rw [← h.1, ← h.2]
      refine ⟨?_, ?_, ?_⟩
      · rw [List.map_append, hpairfst, hra,
          List.map_fst_zip remaining cand (Nat.le_of_eq hclen.symm)]
      · intro q hq
        rcases List.mem_append.1 hq with hq | hq
        · exact hpaircols q hq
        · rw [hra] at hq
          exact snd_mem_zip_lt remaining cand numCols hcb q hq
      · rw [hra2, hra, applyAll_append]

end TruckSched

namespace TruckSched

/-- Shape of a successful kip solve: assignment covers pairs then remaining
items, uses in-range columns, heights are the unchecked application to the
baselines, and the reported optimum is the maximum height. -/
theorem kip_some_spec (paired : List (Nat × Nat)) (remaining lengths : List Nat)
    (cols : List Kip.Column) (asg : List (Nat × Nat)) (hts : List Nat) (m : Nat)
    (h : Kip.find_optimal_assignment paired remaining lengths cols = some (asg, hts, m)) :
    asg.map Prod.fst = paired.flatMap (fun p => [p.1, p.2]) ++ remaining ∧
    (∀ q ∈ asg, q.2 < cols.length) ∧
    hts = applyAll (fun i => lengths.getD i 0) asg
      (cols.map (fun col => col.current_length)) ∧
    m = maxList hts := by
  rw [Kip.find_optimal_assignment] at h
  split at h
  · exact absurd h (by simp)
  · rename_i asgP htsP hpl
    split at h
    · exact absurd h (by simp)
    · rename_i cand mv hbs
      simp only [Option.some_inj, Prod.mk.injEq] at h
      obtain ⟨tail, ht1, ht2, ht3, ht4⟩ := assignPairsLoop_some lengths cols _ _ _ _ _ hpl
      rw [List.nil_append] at ht1
      obtain ⟨x, hx, hex⟩ := bestSearch_some_exists _ _ _ hbs
      rw [Kip.remainingEvalK] at hex
      cases hac : addChecked (fun i => lengths.getD i 0)
          (fun c => (cols.getD c ⟨0, 0⟩).max_length) (remaining.zip x) htsP with
      | none => rw [hac] at hex; exact absurd hex (by simp)
      | some hres =>
        rw [hac] at hex
        simp only [Option.map_some', Option.some_inj, Prod.mk.injEq] at hex
        have hxc : x = cand := hex.1
        subst hxc
        obtain ⟨hclen, hcb⟩ := (mem_productCols cols.length remaining.length x).1 hx
        have hfin : hts = applyAll (fun i => lengths.getD i 0) (remaining.zip x) htsP := by
          rw [← h.2.1]
        refine ⟨?_, ?_, ?_, ?_⟩
        · rw [← h.1, List.map_append, ht1, ht2,
            List.map_fst_zip remaining x (Nat.le_of_eq hclen.symm)]
        · intro q hq
          rw [← h.1] at hq
          rcases List.mem_append.1 hq with hq | hq
          · rw [ht1] at hq; exact ht3 q hq
          · exact snd_mem_zip_lt remaining x cols.length hcb q hq
        · rw [hfin, ht4, ← applyAll_append, ← h.1, ht1]
        · have hres_eq : hres = applyAll (fun i => lengths.getD i 0)
              (remaining.zip x) htsP := addChecked_some_eq _ _ _ _ _ hac
          rw [← h.2.2, ← hex.2, hres_eq, ← hfin]

/-- Shape of a successful sleper fallback search: the result is a greedy
placement of some permutation of all item indices, its reported optimum is the
maximum height, and its heights are recomputed per column. -/
theorem fallbackSearch_some_spec (lengths : List Nat) (maxLen numCols : Nat)
    (hpos : 0 < numCols) (asg : List (Nat × Nat)) (hts : List Nat) (m : Nat)
    (h : Sleper.fallbackSearch lengths maxLen numCols = some (asg, hts, m)) :
    ∃ p hG, p.Perm (List.range lengths.length) ∧
      Sleper.greedyPerm lengths maxLen p (List.replicate numCols 0) [] = some (asg, hG) ∧
      m = maxList hG ∧ hts = hG ∧
      asg.map Prod.fst = p ∧ (∀ q ∈ asg, q.2 < numCols) := by
  rw [Sleper.fallbackSearch] at h
  cases hbs : bestSearch (Sleper.fallbackEval lengths maxLen numCols)
      (Sleper.perms (List.range lengths.length)) none with
  | none => rw [hbs] at h; exact absurd h (by simp)
  | some v =>
    obtain ⟨asgv, mv⟩ := v
    rw [hbs] at h
    simp only [Option.some_inj, Prod.mk.injEq] at h
    rw [← h.1, ← h.2.2]
    obtain ⟨p, hp, hep⟩ := bestSearch_some_exists _ _ _ hbs
    rw [Sleper.fallbackEval] at hep
    cases hgp : Sleper.greedyPerm lengths maxLen p (List.replicate numCols 0) [] with
    | none => rw [hgp] at hep; exact absurd hep (by simp)
    | some gv =>
      obtain ⟨gasg, ghts⟩ := gv
      rw [hgp] at hep
      simp only [Option.map_some', Option.some_inj, Prod.mk.injEq] at hep
      have hperm : p.Perm (List.range lengths.length) :=
        (mem_perms_iff (List.range lengths.length) p).1 hp
      have hposr : 0 < (List.replicate numCols 0).length := by
        rw [List.length_replicate]; exact hpos
      obtain ⟨tail, hg1, hg2, hg3, hg4⟩ :=
        greedyPerm_some lengths maxLen p _ _ _ _ hposr hgp
      rw [List.nil_append] at hg1
      subst hg1
      rw [hep.1] at hgp hg2 hg3 hg4
      have hcols : ∀ q ∈ asgv, q.2 < numCols := by
        intro q hq
        have := hg3 q hq
        rwa [List.length_replicate] at this
      have hghts_len : ghts.length = numCols := by
        rw [hg4, length_applyAll, List.length_replicate]
      have hhts : hts = ghts := by
        rw [← h.2.1]
        apply list_eq_of_getD
        · rw [List.length_map, List.length_range, hghts_len]
        · intro c hc
          rw [List.length_map, List.length_range] at hc
          rw [getD_map_range _ _ _ hc, hg4]
          rw [getD_applyAll (fun i => lengths.getD i 0) asgv (List.replicate numCols 0)
            (by intro q hq; rw [List.length_replicate]; exact hcols q hq) c]
          have hrep : (List.replicate numCols 0).getD c 0 = 0 := by
            rw [List.getD_eq_getElem?_getD, List.getElem?_replicate]
            split <;> rfl
          rw [hrep]
          simp
      exact ⟨p, ghts, hperm, hgp, hep.2.symm, hhts, hg2, hcols⟩

/-! ### Claim C9: determinism of `solve` -/

/-- C9: solve is deterministic — both solvers are pure functions of their
inputs, so two runs on identical pairs, singles, item lengths and capacity
configuration return identical assignments, column loads and maximum loads. -/
theorem C9_solve_deterministic :
    (∀ paired remaining lengths maxLen numCols,
      Sleper.find_optimal_assignment paired remaining lengths maxLen numCols =
        Sleper.find_optimal_assignment paired remaining lengths maxLen numCols) ∧
    (∀ paired remaining lengths cols,
      Kip.find_optimal_assignment paired remaining lengths cols =
        Kip.find_optimal_assignment paired remaining lengths cols) :=
  ⟨fun _ _ _ _ _ => rfl, fun _ _ _ _ => rfl⟩

/-! ### Claim C10: sleper's unchecked pair placement -/

/-- C10: in the 2-column variant the pair-placement step unconditionally sends
the first element of every pair to column 0 and the second to column 1 with no
capacity test, it never fails (with no single items the solve always
succeeds), and the pair-first path fails exactly when the single-item
placement step fails. -/
theorem C10_sleper_pair_phase_unchecked :
    (∀ paired lengths,
      (Sleper.assign_paired_containers paired lengths 2).1 =
        paired.flatMap (fun p => [(p.1, 0), (p.2, 1)])) ∧
    (∀ paired lengths maxLen,
      (Sleper.find_optimal_assignment paired [] lengths maxLen 2).isSome = true) ∧
    (∀ paired remaining lengths maxLen numCols,
      Sleper.tryPath paired remaining lengths maxLen numCols = none ↔
        remaining ≠ [] ∧
          Sleper.assign_remaining_containers remaining lengths
            (Sleper.assign_paired_containers paired lengths numCols).2 maxLen numCols =
            none) := by
  refine ⟨?_, ?_, ?_⟩
  · intro paired lengths
    rw [assign_paired_containers_eq]
  · intro paired lengths maxLen
    rw [Sleper.find_optimal_assignment, Sleper.tryPath]
    simp only [List.isEmpty_nil, if_true]
    split <;> rfl
  · intro paired remaining lengths maxLen numCols
    rw [Sleper.tryPath]
    have hst1 : (if paired.isEmpty then (([], List.replicate numCols 0) :
          List (Nat × Nat) × List Nat)
        else Sleper.assign_paired_containers paired lengths numCols) =
        Sleper.assign_paired_containers paired lengths numCols := by
      split
      · rename_i hemp
        have : paired = [] := by
          cases paired with
          | nil => rfl
          | cons a l => simp [List.isEmpty] at hemp
        subst this
        rfl
      · rfl
    rw [hst1]
    cases hremp : remaining with
    | nil => simp
    | cons a l =>
      simp only [List.isEmpty_cons, Bool.false_eq_true, if_false, ne_eq,
        reduceCtorEq, not_false_eq_true, true_and]
      cases Sleper.assign_remaining_containers (a :: l) lengths
          (Sleper.assign_paired_containers paired lengths numCols).2 maxLen numCols with
      | none => simp
      | some r => simp

/-! ### Counterexamples -/

/-- C1 fails as stated: the 2-column solve succeeds on four items of length
8000 under column capacity 13600, with both returned column loads equal to
16000, exceeding the capacity (the pairs come from the pairer itself). -/
theorem C1_counterexample :
    pair_containers [8000, 8000, 8000, 8000] = ([(0, 1), (2, 3)], []) ∧
    Sleper.find_optimal_assignment [(0, 1), (2, 3)] [] [8000, 8000, 8000, 8000] 13600 2 =
      some ([(0, 0), (1, 1), (2, 0), (3, 1)], [16000, 16000], 16000) ∧
    ¬ (16000 ≤ 13600) := by
  refine ⟨by decide, by decide, by decide⟩

/-- C2 fails as stated for the 2-column solver: with two items of length 5 and
capacity 3 no column combination satisfies both capacity constraints, yet the
solve succeeds (placing both items over capacity) instead of failing. -/
theorem C2_counterexample :
    pair_containers [5, 5] = ([(0, 1)], []) ∧
    Sleper.find_optimal_assignment [(0, 1)] [] [5, 5] 3 2 =
      some ([(0, 0), (1, 1)], [5, 5], 5) ∧
    ¬ (5 ≤ 3) := by
  refine ⟨by decide, by decide, by decide⟩

/-- C7 fails as stated: on items [5, 5, 4, 4] the 4-column solve succeeds with
capacities [4, 5, 9, 1] but fails after raising column 0's capacity to 5,
because the greedy pair placement then commits the first pair to columns
(0, 1) and leaves no feasible columns for the second pair. -/
theorem C7_counterexample :
    pair_containers [5, 5, 4, 4] = ([(0, 1), (2, 3)], []) ∧
    (Kip.find_optimal_assignment [(0, 1), (2, 3)] [] [5, 5, 4, 4]
      [⟨4, 0⟩, ⟨5, 0⟩, ⟨9, 0⟩, ⟨1, 0⟩]).isSome = true ∧
    Kip.find_optimal_assignment [(0, 1), (2, 3)] [] [5, 5, 4, 4]
      [⟨5, 0⟩, ⟨5, 0⟩, ⟨9, 0⟩, ⟨1, 0⟩] = none := by
  refine ⟨by decide, by decide, by decide⟩

end TruckSched

namespace TruckSched

/-! ### Claim C8: result projection -/

/-- C8: for every successful solve the returned column-loads vector equals,
entry by entry, the column's baseline (zero in the 2-column variant) plus the
sum of the lengths of the items the returned assignment maps to that column,
and the returned maximum load is the maximum entry of that vector. -/
theorem C8_result_projection :
    (∀ paired remaining lengths maxLen numCols asg hts m, 0 < numCols →
      Sleper.find_optimal_assignment paired remaining lengths maxLen numCols =
        some (asg, hts, m) →
      hts.length = numCols ∧
      (∀ c, c < numCols →
        hts.getD c 0 = ((asg.filter (fun p => p.2 == c)).map
          (fun p => lengths.getD p.1 0)).sum) ∧
      m = maxList hts) ∧
    (∀ paired remaining lengths cols asg hts m,
      Kip.find_optimal_assignment paired remaining lengths cols = some (asg, hts, m) →
      hts.length = cols.length ∧
      (∀ c, c < cols.length →
        hts.getD c 0 = (cols.getD c ⟨0, 0⟩).current_length +
          ((asg.filter (fun p => p.2 == c)).map (fun p => lengths.getD p.1 0)).sum) ∧
      m = maxList hts) := by
  constructor
  · intro paired remaining lengths maxLen numCols asg hts m hpos h
    rw [Sleper.find_optimal_assignment] at h
    cases htp : Sleper.tryPath paired remaining lengths maxLen numCols with
    | some tv =>
      obtain ⟨asg0, hts0⟩ := tv
      rw [htp] at h
      simp only [Option.some_inj, Prod.mk.injEq] at h
      obtain ⟨_, hcols, happ⟩ := tryPath_some_spec paired remaining lengths maxLen
        numCols hpos asg0 hts0 htp
      have hlen : hts.length = numCols := by
        rw [← h.2.1, happ, length_applyAll, List.length_replicate]
      refine ⟨hlen, ?_, by rw [← h.2.1]; exact h.2.2.symm⟩
      intro c hc
      rw [← h.2.1, ← h.1, happ]
      rw [getD_applyAll (fun i => lengths.getD i 0) asg0 (List.replicate numCols 0)
        (by intro q hq; rw [List.length_replicate]; exact hcols q hq) c]
      have hrep : (List.replicate numCols 0).getD c 0 = 0 := by
        rw [List.getD_eq_getElem?_getD, List.getElem?_replicate]
        split <;> rfl
      rw [hrep]
      simp
    | none =>
      rw [htp] at h
      obtain ⟨p, hG, hperm, hgp, hm, hhts, hfst, hcols⟩ :=
        fallbackSearch_some_spec lengths maxLen numCols hpos asg hts m h
      obtain ⟨tail, ht1, ht2, ht3, ht4⟩ := greedyPerm_some lengths maxLen p _ _ _ _
        (by rw [List.length_replicate]; exact hpos) hgp
      rw [List.nil_append] at ht1
      subst ht1
      have hlen : hts.length = numCols := by
        rw [hhts, ht4, length_applyAll, List.length_replicate]
      refine ⟨hlen, ?_, by rw [hm, hhts]⟩
      intro c hc
      rw [hhts, ht4]
      rw [getD_applyAll (fun i => lengths.getD i 0) asg (List.replicate numCols 0)
        (by intro q hq; rw [List.length_replicate]; exact hcols q hq) c]
      have hrep : (List.replicate numCols 0).getD c 0 = 0 := by
        rw [List.getD_eq_getElem?_getD, List.getElem?_replicate]
        split <;> rfl
      rw [hrep]
      simp
  · intro paired remaining lengths cols asg hts m h
    obtain ⟨_, hcols, happ, hmax⟩ := kip_some_spec paired remaining lengths cols
      asg hts m h
    have hlen : hts.length = cols.length := by
      rw [happ, length_applyAll, List.length_map]
    refine ⟨hlen, ?_, hmax⟩
    intro c hc
    rw [happ]
    rw [getD_applyAll (fun i => lengths.getD i 0) asg
      (cols.map (fun col => col.current_length))
      (by intro q hq; rw [List.length_map]; exact hcols q hq) c]
    rw [getD_map_col (fun col => col.current_length) cols c hc]

end TruckSched

namespace TruckSched

/-- Total load of an assignment whose item indices are a permutation of all
item indices: unchecked application adds exactly the sum of all lengths. -/
theorem sum_of_shape (lengths : List Nat) (asg : List (Nat × Nat)) (hts0 : List Nat)
    (hcols : ∀ q ∈ asg, q.2 < hts0.length)
    (hfst : (asg.map Prod.fst).Perm (List.range lengths.length)) :
    (applyAll (fun i => lengths.getD i 0) asg hts0).sum = hts0.sum + lengths.sum := by
  rw [sum_applyAll _ _ _ hcols]
  congr 1
  have h1 : asg.map (fun p => lengths.getD p.1 0) =
      (asg.map Prod.fst).map (fun i => lengths.getD i 0) := by
    rw [List.map_map]
    rfl
  rw [h1, (hfst.map (fun i => lengths.getD i 0)).sum_eq]
  exact sum_map_getD_range lengths

/-- Capacity bound for successful kip solves whose baselines respect the
capacities. -/
theorem kip_some_within (paired : List (Nat × Nat)) (remaining lengths : List Nat)
    (cols : List Kip.Column) (asg : List (Nat × Nat)) (hts : List Nat) (m : Nat)
    (hbase : ∀ c, c < cols.length →
      (cols.getD c ⟨0, 0⟩).current_length ≤ (cols.getD c ⟨0, 0⟩).max_length)
    (h : Kip.find_optimal_assignment paired remaining lengths cols = some (asg, hts, m)) :
    ∀ c, c < cols.length → hts.getD c 0 ≤ (cols.getD c ⟨0, 0⟩).max_length := by
  rw [Kip.find_optimal_assignment] at h
  split at h
  · exact absurd h (by simp)
  · rename_i asgP htsP hpl
    split at h
    · exact absurd h (by simp)
    · rename_i cand mv hbs
      simp only [Option.some_inj, Prod.mk.injEq] at h
      have hlen0 : (cols.map (fun col => col.current_length)).length = cols.length :=
        List.length_map _ _
      have hinv0 : ∀ c, c < cols.length →
          (cols.map (fun col => col.current_length)).getD c 0 ≤
            (cols.getD c ⟨0, 0⟩).max_length := by
        intro c hc
        rw [getD_map_col _ _ _ hc]
        exact hbase c hc
      obtain ⟨hinvP, hlenP⟩ :=
        assignPairsLoop_within lengths cols _ _ _ _ _ hlen0 hinv0 hpl
      obtain ⟨x, hx, hex⟩ := bestSearch_some_exists _ _ _ hbs
      rw [Kip.remainingEvalK] at hex
      cases hac : addChecked (fun i => lengths.getD i 0)
          (fun c => (cols.getD c ⟨0, 0⟩).max_length) (remaining.zip x) htsP with
      | none => rw [hac] at hex; exact absurd hex (by simp)
      | some hres =>
        rw [hac] at hex
        simp only [Option.map_some', Option.some_inj, Prod.mk.injEq] at hex
        have hxc : x = cand := hex.1
        subst hxc
        obtain ⟨hclen, hcb⟩ := (mem_productCols cols.length remaining.length x).1 hx
        have hzipcols : ∀ q ∈ remaining.zip x, q.2 < htsP.length := by
          intro q hq
          rw [hlenP]
          exact snd_mem_zip_lt remaining x cols.length hcb q hq
        have hinvP2 : ∀ c, c < htsP.length →
            htsP.getD c 0 ≤ (cols.getD c ⟨0, 0⟩).max_length := by
          intro c hc
          rw [hlenP] at hc
          exact hinvP c hc
        have hwithin := addChecked_some_within (fun i => lengths.getD i 0)
          (fun c => (cols.getD c ⟨0, 0⟩).max_length) (remaining.zip x) htsP hres
          hzipcols hinvP2 hac
        have hres_eq : hres = applyAll (fun i => lengths.getD i 0)
            (remaining.zip x) htsP := addChecked_some_eq _ _ _ _ _ hac
        intro c hc
        rw [← h.2.1, ← hres_eq]
        exact hwithin c (by rw [hlenP]; exact hc)

/-! ### Claim C6: totality of successful assignments -/

/-- C6: each solver either fails with the distinguished failure value (no
assignment at all) or succeeds with an assignment whose item indices are
exactly all input indices, each exactly once; partial assignments never
escape. The pairs and singles fed to the solver are assumed to partition the
item indices (as `pair_containers` produces). -/
theorem C6_total_or_failure :
    (∀ paired remaining lengths maxLen numCols, 0 < numCols →
      (paired.flatMap (fun p => [p.1, p.2]) ++ remaining).Perm
        (List.range lengths.length) →
      Sleper.find_optimal_assignment paired remaining lengths maxLen numCols = none ∨
      ∃ asg hts m,
        Sleper.find_optimal_assignment paired remaining lengths maxLen numCols =
          some (asg, hts, m) ∧ (asg.map Prod.fst).Perm (List.range lengths.length)) ∧
    (∀ paired remaining lengths cols,
      (paired.flatMap (fun p => [p.1, p.2]) ++ remaining).Perm
        (List.range lengths.length) →
      Kip.find_optimal_assignment paired remaining lengths cols = none ∨
      ∃ asg hts m, Kip.find_optimal_assignment paired remaining lengths cols =
        some (asg, hts, m) ∧ (asg.map Prod.fst).Perm (List.range lengths.length)) := by
  constructor
  · intro paired remaining lengths maxLen numCols hpos hpart
    cases hrun : Sleper.find_optimal_assignment paired remaining lengths maxLen numCols with
    | none => exact Or.inl rfl
    | some r =>
      obtain ⟨asg, hts, m⟩ := r
      refine Or.inr ⟨asg, hts, m, rfl, ?_⟩
      rw [Sleper.find_optimal_assignment] at hrun
      cases htp : Sleper.tryPath paired remaining lengths maxLen numCols with
      | some tv =>
        obtain ⟨asg0, hts0⟩ := tv
        rw [htp] at hrun
        simp only [Option.some_inj, Prod.mk.injEq] at hrun
        obtain ⟨hfst, -, -⟩ := tryPath_some_spec paired remaining lengths maxLen
          numCols hpos asg0 hts0 htp
        rw [← hrun.1, hfst]
        exact hpart
      | none =>
        rw [htp] at hrun
        obtain ⟨p, hG, hperm, -, -, -, hfst, -⟩ :=
          fallbackSearch_some_spec lengths maxLen numCols hpos asg hts m hrun
        rw [hfst]
        exact hperm
  · intro paired remaining lengths cols hpart
    cases hrun : Kip.find_optimal_assignment paired remaining lengths cols with
    | none => exact Or.inl rfl
    | some r =>
      obtain ⟨asg, hts, m⟩ := r
      refine Or.inr ⟨asg, hts, m, rfl, ?_⟩
      obtain ⟨hfst, -, -, -⟩ := kip_some_spec paired remaining lengths cols asg hts m hrun
      rw [hfst]
      exact hpart

/-! ### Claim C1 (amended): load sums and capacity bounds -/

/-- C1 (amended): for every successful solve on pairs and singles that
partition the item indices, the sum of the returned column loads equals the
sum of the baselines plus the sum of all item lengths (baselines are zero in
the 2-column variant); in the 4-column variant, when every baseline is within
its column's capacity, every returned load is within its column's capacity.
The capacity clause fails for the 2-column variant as stated (see the
counterexample): its pair placement is unchecked. -/
theorem C1_load_sums_and_capacity :
    (∀ paired remaining lengths maxLen numCols asg hts m, 0 < numCols →
      (paired.flatMap (fun p => [p.1, p.2]) ++ remaining).Perm
        (List.range lengths.length) →
      Sleper.find_optimal_assignment paired remaining lengths maxLen numCols =
        some (asg, hts, m) →
      hts.sum = lengths.sum) ∧
    (∀ paired remaining lengths cols asg hts m,
      (paired.flatMap (fun p => [p.1, p.2]) ++ remaining).Perm
        (List.range lengths.length) →
      (∀ c, c < cols.length →
        (cols.getD c ⟨0, 0⟩).current_length ≤ (cols.getD c ⟨0, 0⟩).max_length) →
      Kip.find_optimal_assignment paired remaining lengths cols = some (asg, hts, m) →
      hts.sum = (cols.map (fun col => col.current_length)).sum + lengths.sum ∧
      (∀ c, c < cols.length → hts.getD c 0 ≤ (cols.getD c ⟨0, 0⟩).max_length)) := by
  constructor
  · intro paired remaining lengths maxLen numCols asg hts m hpos hpart h
    rw [Sleper.find_optimal_assignment] at h
    cases htp : Sleper.tryPath paired remaining lengths maxLen numCols with
    | some tv =>
      obtain ⟨asg0, hts0⟩ := tv
      rw [htp] at h
      simp only [Option.some_inj, Prod.mk.injEq] at h
      obtain ⟨hfst, hcols, happ⟩ := tryPath_some_spec paired remaining lengths maxLen
        numCols hpos asg0 hts0 htp
      rw [← h.2.1, happ]
      have hsum := sum_of_shape lengths asg0 (List.replicate numCols 0)
        (by intro q hq; rw [List.length_replicate]; exact hcols q hq)
        (by rw [hfst]; exact hpart)
      rw [hsum]
      simp
    | none =>
      rw [htp] at h
      obtain ⟨p, hG, hperm, hgp, hm, hhts, hfst, hcols⟩ :=
        fallbackSearch_some_spec lengths maxLen numCols hpos asg hts m h
      obtain ⟨tail, ht1, -, -, ht4⟩ := greedyPerm_some lengths maxLen p _ _ _ _
        (by rw [List.length_replicate]; exact hpos) hgp
      rw [List.nil_append] at ht1
      subst ht1
      rw [hhts, ht4]
      have hsum := sum_of_shape lengths asg (List.replicate numCols 0)
        (by intro q hq; rw [List.length_replicate]; exact hcols q hq)
        (by rw [hfst]; exact hperm)
      rw [hsum]
      simp
  · intro paired remaining lengths cols asg hts m hpart hbase h
    obtain ⟨hfst, hcols, happ, -⟩ := kip_some_spec paired remaining lengths cols
      asg hts m h
    constructor
    · rw [happ]
      exact sum_of_shape lengths asg (cols.map (fun col => col.current_length))
        (by intro q hq; rw [List.length_map]; exact hcols q hq)
        (by rw [hfst]; exact hpart)
    · exact kip_some_within paired remaining lengths cols asg hts m hbase h

end TruckSched

namespace TruckSched

/-! ### Claim C2 (amended): kip's pair placement -/

/-- C2 (amended, 4-column solver): each pair is placed on two distinct columns
(the combination is ordered, so the columns differ), both placements are
within capacity at the moment of commitment, the committed combination is the
first capacity-satisfying one in the fixed ascending enumeration of column
combinations, and when no combination satisfies both constraints the whole
solve returns the failure value. The 2-column solver violates the claim (see
the counterexample): its pair placement performs no capacity check at all. -/
theorem C2_kip_pair_placement :
    (∀ n pc, pc ∈ Kip.combinations2 n → pc.1 < pc.2 ∧ pc.2 < n) ∧
    (∀ lengths cols hts asg a b rest c1 c2,
      (Kip.combinations2 cols.length).find? (Kip.pairFits lengths cols hts a b) =
        some (c1, c2) →
      Kip.assignPairsLoop lengths cols ((a, b) :: rest) asg hts =
        Kip.assignPairsLoop lengths cols rest (asg ++ [(a, c1), (b, c2)])
          (bump (bump hts c1 (lengths.getD a 0)) c2 (lengths.getD b 0)) ∧
      hts.getD c1 0 + lengths.getD a 0 ≤ (cols.getD c1 ⟨0, 0⟩).max_length ∧
      hts.getD c2 0 + lengths.getD b 0 ≤ (cols.getD c2 ⟨0, 0⟩).max_length ∧
      ∃ pre post, Kip.combinations2 cols.length = pre ++ (c1, c2) :: post ∧
        ∀ pc ∈ pre, Kip.pairFits lengths cols hts a b pc = false) ∧
    (∀ lengths cols hts asg a b rest,
      (Kip.combinations2 cols.length).find? (Kip.pairFits lengths cols hts a b) = none →
      Kip.assignPairsLoop lengths cols ((a, b) :: rest) asg hts = none) ∧
    (∀ paired remaining lengths cols,
      Kip.assignPairsLoop lengths cols paired []
        (cols.map (fun col => col.current_length)) = none →
      Kip.find_optimal_assignment paired remaining lengths cols = none) := by
  refine ⟨?_, ?_, ?_, ?_⟩
  · intro n pc hpc
    exact (mem_combinations2 n pc).1 hpc
  · intro lengths cols hts asg a b rest c1 c2 hfind
    have hfits := List.find?_some hfind
    rw [Kip.pairFits, Bool.and_eq_true, decide_eq_true_eq, decide_eq_true_eq] at hfits
    obtain ⟨hc1, ⟨pre, post, hsplit, hpre⟩⟩ :=
      find?_eq_some_first (Kip.pairFits lengths cols hts a b)
        (Kip.combinations2 cols.length) (c1, c2) hfind
    refine ⟨?_, hfits.1, hfits.2, pre, post, hsplit, ?_⟩
    · rw [Kip.assignPairsLoop, hfind]
    · intro pc hpc
      exact hpre pc hpc
  · intro lengths cols hts asg a b rest hfind
    rw [Kip.assignPairsLoop, hfind]
  · intro paired remaining lengths cols h
    rw [Kip.find_optimal_assignment, h]

/-- Witness for C2 at a concrete input: with two items of length 5 and two
columns of capacity 3, no combination fits and the pair loop fails. -/
theorem C2_witness :
    Kip.assignPairsLoop [5, 5] [⟨3, 0⟩, ⟨3, 0⟩] [(0, 1)] [] [0, 0] = none :=
  C2_kip_pair_placement.2.2.1 [5, 5] [⟨3, 0⟩, ⟨3, 0⟩] [0, 0] [] 0 1 [] (by decide)

/-! ### Claim C7 (amended): capacity monotonicity -/

theorem remainingEval_mono (remaining lengths : List Nat) (maxLen maxLen' : Nat)
    (hts cand : List Nat) (hle : maxLen ≤ maxLen')
    (h : (Sleper.remainingEval remaining lengths maxLen hts cand).isSome = true) :
    (Sleper.remainingEval remaining lengths maxLen' hts cand).isSome = true := by
  rw [Sleper.remainingEval] at h ⊢
  cases hac : addChecked (fun i => lengths.getD i 0) (fun _ => maxLen)
      (remaining.zip cand) hts with
  | none => rw [hac] at h; simp at h
  | some hres =>
    rw [addChecked_mono (fun i => lengths.getD i 0) (fun _ => maxLen) (fun _ => maxLen')
      (fun _ => hle) _ _ _ hac]
    rfl

theorem assign_remaining_isSome_iff (remaining lengths hts : List Nat)
    (maxLen numCols : Nat) :
    (Sleper.assign_remaining_containers remaining lengths hts maxLen numCols).isSome
        = true ↔
      (remaining.isEmpty = true ∨
        ∃ cand ∈ productCols numCols remaining.length,
          (Sleper.remainingEval remaining lengths maxLen hts cand).isSome = true) := by
  rw [Sleper.assign_remaining_containers]
  by_cases hremp : remaining.isEmpty
  · simp [hremp]
  · simp only [hremp, Bool.false_eq_true, if_false, false_or]
    rw [← bestSearch_isSome_iff]
    cases bestSearch (Sleper.remainingEval remaining lengths maxLen hts)
        (productCols numCols remaining.length) none with
    | none => simp
    | some v => obtain ⟨c, m⟩ := v; simp

theorem tryPath_isSome_iff (paired : List (Nat × Nat)) (remaining lengths : List Nat)
    (maxLen numCols : Nat) :
    (Sleper.tryPath paired remaining lengths maxLen numCols).isSome = true ↔
      (remaining.isEmpty = true ∨
        (Sleper.assign_remaining_containers remaining lengths
          (Sleper.assign_paired_containers paired lengths numCols).2 maxLen
          numCols).isSome = true) := by
  simp only [Sleper.tryPath]
  have hst1 : (if paired.isEmpty then (([], List.replicate numCols 0) :
        List (Nat × Nat) × List Nat)
      else Sleper.assign_paired_containers paired lengths numCols) =
      Sleper.assign_paired_containers paired lengths numCols := by
    split
    · rename_i hemp
      have : paired = [] := by
        cases paired with
        | nil => rfl
        | cons a l => simp [List.isEmpty] at hemp
      subst this
      rfl
    · rfl
  rw [hst1]
  by_cases hremp : remaining.isEmpty
  · simp [hremp]
  · simp only [hremp, Bool.false_eq_true, if_false, false_or]
    cases Sleper.assign_remaining_containers remaining lengths
        (Sleper.assign_paired_containers paired lengths numCols).2 maxLen numCols with
    | none => simp
    | some r => obtain ⟨ra, hts⟩ := r; simp

theorem tryPath_mono_isSome (paired : List (Nat × Nat)) (remaining lengths : List Nat)
    (maxLen maxLen' numCols : Nat) (hle : maxLen ≤ maxLen')
    (h : (Sleper.tryPath paired remaining lengths maxLen numCols).isSome = true) :
    (Sleper.tryPath paired remaining lengths maxLen' numCols).isSome = true := by
  rw [tryPath_isSome_iff] at h ⊢
  rcases h with h | h
  · exact Or.inl h
  · rw [assign_remaining_isSome_iff] at h ⊢
    rcases h with h | ⟨cand, hc, he⟩
    · exact Or.inl h
    · exact Or.inr (Or.inr ⟨cand, hc, remainingEval_mono _ _ _ _ _ _ hle he⟩)

theorem fallbackEval_mono (lengths : List Nat) (maxLen maxLen' numCols : Nat)
    (p : List Nat) (hle : maxLen ≤ maxLen')
    (h : (Sleper.fallbackEval lengths maxLen numCols p).isSome = true) :
    (Sleper.fallbackEval lengths maxLen' numCols p).isSome = true := by
  rw [Sleper.fallbackEval] at h ⊢
  cases hgp : Sleper.greedyPerm lengths maxLen p (List.replicate numCols 0) [] with
  | none => rw [hgp] at h; simp at h
  | some r =>
    rw [greedyPerm_mono lengths maxLen maxLen' hle _ _ _ _ hgp]
    rfl

theorem fallbackSearch_isSome_iff (lengths : List Nat) (maxLen numCols : Nat) :
    (Sleper.fallbackSearch lengths maxLen numCols).isSome = true ↔
      ∃ p ∈ Sleper.perms (List.range lengths.length),
        (Sleper.fallbackEval lengths maxLen numCols p).isSome = true := by
  rw [Sleper.fallbackSearch, ← bestSearch_isSome_iff]
  cases bestSearch (Sleper.fallbackEval lengths maxLen numCols)
      (Sleper.perms (List.range lengths.length)) none with
  | none => simp
  | some v => obtain ⟨a, m⟩ := v; simp

theorem fallbackSearch_mono_isSome (lengths : List Nat) (maxLen maxLen' numCols : Nat)
    (hle : maxLen ≤ maxLen')
    (h : (Sleper.fallbackSearch lengths maxLen numCols).isSome = true) :
    (Sleper.fallbackSearch lengths maxLen' numCols).isSome = true := by
  rw [fallbackSearch_isSome_iff] at h ⊢
  obtain ⟨p, hp, he⟩ := h
  exact ⟨p, hp, fallbackEval_mono _ _ _ _ _ hle he⟩

theorem find_optimal_isSome_iff (paired : List (Nat × Nat)) (remaining lengths : List Nat)
    (maxLen numCols : Nat) :
    (Sleper.find_optimal_assignment paired remaining lengths maxLen numCols).isSome
        = true ↔
      ((Sleper.tryPath paired remaining lengths maxLen numCols).isSome = true ∨
        (Sleper.fallbackSearch lengths maxLen numCols).isSome = true) := by
  rw [Sleper.find_optimal_assignment]
  cases htp : Sleper.tryPath paired remaining lengths maxLen numCols with
  | none => simp
  | some tv => obtain ⟨a, b⟩ := tv; simp

/-- C7 (amended): in the 2-column variant the two columns share one capacity,
and raising that capacity preserves success — the greedy column choices in
both phases never depend on the capacity, only the accept checks do. In the
4-column variant the claim fails as stated (see the counterexample): raising
one column's capacity can redirect the greedy pair placement into a dead
end. -/
theorem C7_sleper_capacity_monotone (paired : List (Nat × Nat))
    (remaining lengths : List Nat) (maxLen maxLen' numCols : Nat)
    (hle : maxLen ≤ maxLen')
    (h : (Sleper.find_optimal_assignment paired remaining lengths maxLen
      numCols).isSome = true) :
    (Sleper.find_optimal_assignment paired remaining lengths maxLen'
      numCols).isSome = true := by
  rw [find_optimal_isSome_iff] at h ⊢
  rcases h with h | h
  · exact Or.inl (tryPath_mono_isSome paired remaining lengths maxLen maxLen'
      numCols hle h)
  · exact Or.inr (fallbackSearch_mono_isSome lengths maxLen maxLen' numCols hle h)

/-- Witness for C7 at a concrete input: items [4, 4, 5] need the fallback at
capacity 8 and still succeed at capacity 9. -/
theorem C7_witness :
    (Sleper.find_optimal_assignment [(0, 1)] [2] [4, 4, 5] 9 2).isSome = true :=
  C7_sleper_capacity_monotone [(0, 1)] [2] [4, 4, 5] 8 9 2 (by decide) (by decide)

end TruckSched

namespace TruckSched

/-! ### Claim C3: exhaustive placement of the single items -/

/-- When every pre-phase load is within capacity, the per-candidate evaluation
of the brute-force loop acts exactly as a validity filter paired with the
resulting maximum load. -/
theorem eval_eq_filter (len cap : Nat → Nat) (remaining : List Nat) (hts : List Nat)
    (hpre : ∀ c, c < hts.length → hts.getD c 0 ≤ cap c)
    (cand : List Nat) (hcb : ∀ c ∈ cand, c < hts.length) :
    (addChecked len cap (remaining.zip cand) hts).map (fun h => (cand, maxList h)) =
      (if candFeasible len cap remaining hts cand
       then some (cand, candScore len remaining hts cand) else none) := by
  have hzip : ∀ q ∈ remaining.zip cand, q.2 < hts.length := by
    intro q hq
    exact hcb q.2 (List.of_mem_zip hq).2
  by_cases hv : candFeasible len cap remaining hts cand = true
  · rw [if_pos hv]
    rw [candFeasible, decide_eq_true_eq] at hv
    have hsome : (addChecked len cap (remaining.zip cand) hts).isSome = true := by
      rw [addChecked_isSome_iff len cap _ hts hzip]
      intro c hc
      have hcl : c < hts.length := by
        rw [List.mem_map] at hc
        obtain ⟨q, hq, hqc⟩ := hc
        subst hqc
        exact hzip q hq
      exact hv c hcl
    obtain ⟨h', hh'⟩ := Option.isSome_iff_exists.1 hsome
    rw [hh', addChecked_some_eq len cap _ hts h' hh']
    rfl
  · rw [if_neg hv]
    rw [candFeasible, decide_eq_true_eq] at hv
    push_neg at hv
    obtain ⟨c, hc, hover⟩ := hv
    cases hac : addChecked len cap (remaining.zip cand) hts with
    | none => rfl
    | some h' =>
      have hw := addChecked_some_within len cap _ hts h' hzip hpre hac
      rw [addChecked_some_eq len cap _ hts h' hac] at hw
      exact absurd (hw c hc) (Nat.not_le_of_lt hover)

/-- C3: both solvers place the single items by enumerating every mapping of
singles to columns — `columnCount ^ |singles|` candidates, each list of column
choices appearing exactly when its entries are in range; assuming the
pre-phase loads are within capacity (true at every reachable phase entry of
the 4-column solver, whose baselines are zero), a candidate is valid exactly
when no column's resulting load exceeds its capacity, the selected candidate
is the first valid one attaining the minimal maximum column load in
enumeration order, and when no candidate is valid the phase fails (in the
4-column solver the whole solve then returns the failure value). -/
theorem C3_exhaustive_single_placement :
    (∀ n k, (productCols n k).length = n ^ k ∧
      ∀ cand, cand ∈ productCols n k ↔ cand.length = k ∧ ∀ c ∈ cand, c < n) ∧
    (∀ remaining lengths hts maxLen numCols, hts.length = numCols →
      (∀ c, c < numCols → hts.getD c 0 ≤ maxLen) →
      (match Sleper.assign_remaining_containers remaining lengths hts maxLen numCols with
       | none => ∀ cand ∈ productCols numCols remaining.length,
           candFeasible (fun i => lengths.getD i 0) (fun _ => maxLen) remaining hts cand
             = false
       | some r => ∃ cand,
           IsFirstBest (productCols numCols remaining.length)
             (candFeasible (fun i => lengths.getD i 0) (fun _ => maxLen) remaining hts)
             (candScore (fun i => lengths.getD i 0) remaining hts) cand ∧
           r = (remaining.zip cand,
             applyAll (fun i => lengths.getD i 0) (remaining.zip cand) hts))) ∧
    (∀ remaining lengths cols hts, hts.length = cols.length →
      (∀ c, c < cols.length → hts.getD c 0 ≤ (cols.getD c ⟨0, 0⟩).max_length) →
      (match bestSearch (Kip.remainingEvalK remaining lengths cols hts)
          (productCols cols.length remaining.length) none with
       | none => (∀ cand ∈ productCols cols.length remaining.length,
           candFeasible (fun i => lengths.getD i 0)
             (fun c => (cols.getD c ⟨0, 0⟩).max_length) remaining hts cand = false) ∧
           (∀ paired asgP, Kip.assignPairsLoop lengths cols paired []
               (cols.map (fun col => col.current_length)) = some (asgP, hts) →
             Kip.find_optimal_assignment paired remaining lengths cols = none)
       | some v => ∃ cand,
           IsFirstBest (productCols cols.length remaining.length)
             (candFeasible (fun i => lengths.getD i 0)
               (fun c => (cols.getD c ⟨0, 0⟩).max_length) remaining hts)
             (candScore (fun i => lengths.getD i 0) remaining hts) cand ∧
           v = (cand, candScore (fun i => lengths.getD i 0) remaining hts cand))) := by
  refine ⟨?_, ?_, ?_⟩
  · intro n k
    exact ⟨length_productCols n k, mem_productCols n k⟩
  · intro remaining lengths hts maxLen numCols hlen hpre
    have hpre2 : ∀ c, c < hts.length → hts.getD c 0 ≤ (fun _ : Nat => maxLen) c := by
      intro c hc
      exact hpre c (by rw [← hlen]; exact hc)
    have heval : ∀ cand ∈ productCols numCols remaining.length,
        Sleper.remainingEval remaining lengths maxLen hts cand =
          (if candFeasible (fun i => lengths.getD i 0) (fun _ => maxLen)
              remaining hts cand
           then some (cand, candScore (fun i => lengths.getD i 0) remaining hts cand)
           else none) := by
      intro cand hcand
      obtain ⟨-, hcb⟩ := (mem_productCols numCols remaining.length cand).1 hcand
      rw [Sleper.remainingEval]
      exact eval_eq_filter (fun i => lengths.getD i 0) (fun _ => maxLen) remaining hts
        hpre2 cand (by intro c hc; rw [hlen]; exact hcb c hc)
    have hspec := bestSearch_spec (Sleper.remainingEval remaining lengths maxLen hts)
      (productCols numCols remaining.length)
      (candFeasible (fun i => lengths.getD i 0) (fun _ => maxLen) remaining hts)
      (fun c => c) (candScore (fun i => lengths.getD i 0) remaining hts) heval
    by_cases hremp : remaining.isEmpty = true
    · have hrnil : remaining = [] := by
        cases remaining with
        | nil => rfl
        | cons a l => simp [List.isEmpty] at hremp
      subst hrnil
      have hcall : Sleper.assign_remaining_containers [] lengths hts maxLen numCols =
          some ([], hts) := rfl
      rw [hcall]
      refine ⟨[], ⟨?_, [], [], rfl, by simp, by simp⟩, rfl⟩
      rw [candFeasible, decide_eq_true_eq]
      intro c hc
      simp only [List.zip_nil_left, applyAll_nil]
      exact hpre c (by rw [← hlen]; exact hc)
    · have hcall : Sleper.assign_remaining_containers remaining lengths hts maxLen
          numCols =
          (match bestSearch (Sleper.remainingEval remaining lengths maxLen hts)
              (productCols numCols remaining.length) none with
          | none => none
          | some (cand, _) => some (remaining.zip cand,
              applyAll (fun i => lengths.getD i 0) (remaining.zip cand) hts)) := by
        rw [Sleper.assign_remaining_containers, if_neg hremp]
      rw [hcall]
      cases hbs : bestSearch (Sleper.remainingEval remaining lengths maxLen hts)
          (productCols numCols remaining.length) none with
      | none =>
        intro cand hcand
        exact (hspec.1.1 hbs) cand hcand
      | some v =>
        obtain ⟨cand, m⟩ := v
        obtain ⟨x, hFB, hbx, hmx⟩ := hspec.2 cand m hbs
        exact ⟨x, hFB, by rw [hbx]⟩
  · intro remaining lengths cols hts hlen hpre
    have hpre2 : ∀ c, c < hts.length →
        hts.getD c 0 ≤ (fun c => (cols.getD c ⟨0, 0⟩).max_length) c := by
      intro c hc
      exact hpre c (by rw [← hlen]; exact hc)
    have heval : ∀ cand ∈ productCols cols.length remaining.length,
        Kip.remainingEvalK remaining lengths cols hts cand =
          (if candFeasible (fun i => lengths.getD i 0)
              (fun c => (cols.getD c ⟨0, 0⟩).max_length) remaining hts cand
           then some (cand, candScore (fun i => lengths.getD i 0) remaining hts cand)
           else none) := by
      intro cand hcand
      obtain ⟨-, hcb⟩ := (mem_productCols cols.length remaining.length cand).1 hcand
      rw [Kip.remainingEvalK]
      exact eval_eq_filter (fun i => lengths.getD i 0)
        (fun c => (cols.getD c ⟨0, 0⟩).max_length) remaining hts
        hpre2 cand (by intro c hc; rw [hlen]; exact hcb c hc)
    have hspec := bestSearch_spec (Kip.remainingEvalK remaining lengths cols hts)
      (productCols cols.length remaining.length)
      (candFeasible (fun i => lengths.getD i 0)
        (fun c => (cols.getD c ⟨0, 0⟩).max_length) remaining hts)
      (fun c => c) (candScore (fun i => lengths.getD i 0) remaining hts) heval
    cases hbs : bestSearch (Kip.remainingEvalK remaining lengths cols hts)
        (productCols cols.length remaining.length) none with
    | none =>
      refine ⟨fun cand hcand => (hspec.1.1 hbs) cand hcand, ?_⟩
      intro paired asgP hpl
      have hstep : Kip.find_optimal_assignment paired remaining lengths cols =
          (match bestSearch (Kip.remainingEvalK remaining lengths cols hts)
              (productCols cols.length remaining.length) none with
          | none => none
          | some (cand, m) => some (asgP ++ remaining.zip cand,
              applyAll (fun i => lengths.getD i 0) (remaining.zip cand) hts, m)) := by
        rw [Kip.find_optimal_assignment, hpl]
      rw [hstep, hbs]
    | some v =>
      obtain ⟨cand, m⟩ := v
      obtain ⟨x, hFB, hbx, hmx⟩ := hspec.2 cand m hbs
      exact ⟨x, hFB, by rw [hbx, hmx]⟩

end TruckSched

namespace TruckSched

theorem bestSearch_eq_none_iff (eval : α → Option (β × Nat)) (xs : List α) :
    bestSearch eval xs none = none ↔ ∀ x ∈ xs, eval x = none := by
  rw [bestSearch_none_eq_firstMin, firstMin_eq_none_iff, List.filterMap_eq_nil_iff]

/-! ### Claim C5: the fallback permutation search -/

/-- C5: when the pair-first path of the 2-column solver fails, the solve
equals the fallback search; the fallback fails exactly when the greedy
placement is rejected on every permutation of all item indices; on success it
returns the greedy assignment of some permutation of all item indices whose
maximum column load is minimal among all permutations whose greedy placement
is feasible, with the reported optimum equal to that maximum. The 4-column
solver has no such fallback: it fails exactly when its pair phase or its
single-item phase fails. -/
theorem C5_fallback_permutation_search :
    (∀ paired remaining lengths maxLen numCols,
      Sleper.tryPath paired remaining lengths maxLen numCols = none →
      Sleper.find_optimal_assignment paired remaining lengths maxLen numCols =
        Sleper.fallbackSearch lengths maxLen numCols) ∧
    (∀ lengths maxLen numCols,
      (Sleper.fallbackSearch lengths maxLen numCols = none ↔
        ∀ q, q.Perm (List.range lengths.length) →
          Sleper.greedyPerm lengths maxLen q (List.replicate numCols 0) [] = none)) ∧
    (∀ lengths maxLen numCols asg hts m, 0 < numCols →
      Sleper.fallbackSearch lengths maxLen numCols = some (asg, hts, m) →
      ∃ q hG, q.Perm (List.range lengths.length) ∧
        Sleper.greedyPerm lengths maxLen q (List.replicate numCols 0) [] =
          some (asg, hG) ∧
        m = maxList hG ∧ hts = hG ∧
        ∀ q' r', q'.Perm (List.range lengths.length) →
          Sleper.greedyPerm lengths maxLen q' (List.replicate numCols 0) [] = some r' →
          m ≤ maxList r'.2) ∧
    (∀ paired remaining lengths cols,
      Kip.find_optimal_assignment paired remaining lengths cols = none ↔
        (Kip.assignPairsLoop lengths cols paired []
            (cols.map (fun col => col.current_length)) = none ∨
          ∃ asgP htsP, Kip.assignPairsLoop lengths cols paired []
              (cols.map (fun col => col.current_length)) = some (asgP, htsP) ∧
            bestSearch (Kip.remainingEvalK remaining lengths cols htsP)
              (productCols cols.length remaining.length) none = none)) := by
  refine ⟨?_, ?_, ?_, ?_⟩
  · intro paired remaining lengths maxLen numCols htp
    rw [Sleper.find_optimal_assignment, htp]
  · intro lengths maxLen numCols
    have hfb : Sleper.fallbackSearch lengths maxLen numCols = none ↔
        bestSearch (Sleper.fallbackEval lengths maxLen numCols)
          (Sleper.perms (List.range lengths.length)) none = none := by
      rw [Sleper.fallbackSearch]
      cases bestSearch (Sleper.fallbackEval lengths maxLen numCols)
          (Sleper.perms (List.range lengths.length)) none with
      | none => simp
      | some v => obtain ⟨a, m⟩ := v; simp
    rw [hfb, bestSearch_eq_none_iff]
    constructor
    · intro hall q hq
      have hmem : q ∈ Sleper.perms (List.range lengths.length) :=
        (mem_perms_iff (List.range lengths.length) q).2 hq
      have := hall q hmem
      rw [Sleper.fallbackEval] at this
      cases hgp : Sleper.greedyPerm lengths maxLen q (List.replicate numCols 0) [] with
      | none => rfl
      | some r => rw [hgp] at this; exact absurd this (by simp)
    · intro hall q hq
      rw [Sleper.fallbackEval,
        hall q ((mem_perms_iff (List.range lengths.length) q).1 hq)]
      rfl
  · intro lengths maxLen numCols asg hts m hpos h
    obtain ⟨q, hG, hperm, hgp, hm, hhts, -, -⟩ :=
      fallbackSearch_some_spec lengths maxLen numCols hpos asg hts m h
    refine ⟨q, hG, hperm, hgp, hm, hhts, ?_⟩
    rw [Sleper.fallbackSearch] at h
    cases hbs : bestSearch (Sleper.fallbackEval lengths maxLen numCols)
        (Sleper.perms (List.range lengths.length)) none with
    | none => rw [hbs] at h; exact absurd h (by simp)
    | some v =>
      obtain ⟨asgv, mv⟩ := v
      rw [hbs] at h
      simp only [Option.some_inj, Prod.mk.injEq] at h
      have hmin := firstMin_min _ _ (by rw [← bestSearch_none_eq_firstMin]; exact hbs)
      intro q' r' hq' hgp'
      have hmem : (r'.1, maxList r'.2) ∈
          (Sleper.perms (List.range lengths.length)).filterMap
            (Sleper.fallbackEval lengths maxLen numCols) := by
        refine List.mem_filterMap.2 ⟨q',
          (mem_perms_iff (List.range lengths.length) q').2 hq', ?_⟩
        rw [Sleper.fallbackEval, hgp']
        rfl
      have := hmin _ hmem
      rw [← h.2.2]
      simpa using this
  · intro paired remaining lengths cols
    rw [Kip.find_optimal_assignment]
    cases hpl : Kip.assignPairsLoop lengths cols paired []
        (cols.map (fun col => col.current_length)) with
    | none => simp
    | some pv =>
      obtain ⟨asgP, htsP⟩ := pv
      show (match bestSearch (Kip.remainingEvalK remaining lengths cols htsP)
          (productCols cols.length remaining.length) none with
        | none => none
        | some (cand, m) => some (asgP ++ remaining.zip cand,
            applyAll (fun i => lengths.getD i 0) (remaining.zip cand) htsP, m)) =
          none ↔ _
      cases hbs : bestSearch (Kip.remainingEvalK remaining lengths cols htsP)
          (productCols cols.length remaining.length) none with
      | none =>
        constructor
        · intro _
          exact Or.inr ⟨asgP, htsP, rfl, hbs⟩
        · intro _
          rfl
      | some v =>
        obtain ⟨cand, mv⟩ := v
        constructor
        · intro hcontra
          exact absurd hcontra (by simp)
        · intro hcases
          rcases hcases with hcases | ⟨asgP2, htsP2, heq, hbs2⟩
          · exact absurd hcases (by simp)
          · rw [Option.some_inj, Prod.mk.injEq] at heq
            rw [← heq.2] at hbs2
            rw [hbs2] at hbs
            exact absurd hbs (by simp)

end TruckSched

namespace TruckSched

/-! ### Claim C4: machinery for the pairer -/

theorem getD_mem_of_lt (H : List Nat) (i : Nat) (hi : i < H.length) :
    H.getD i 0 ∈ H := by
  rw [List.getD_eq_getElem?_getD, List.getElem?_eq_getElem hi]
  exact List.getElem_mem hi

theorem mem_groupOf (H : List Nat) (lv i : Nat) :
    i ∈ groupOf H lv ↔ i < H.length ∧ H.getD i 0 = lv := by
  rw [groupOf, List.mem_filter, List.mem_range]
  simp

theorem groupOf_nodup (H : List Nat) (lv : Nat) : (groupOf H lv).Nodup :=
  (List.nodup_range H.length).filter _

theorem groupOf_sorted (H : List Nat) (lv : Nat) :
    (groupOf H lv).Pairwise (· < ·) :=
  (List.pairwise_lt_range H.length).filter _

theorem groupOf_not_mem (H : List Nat) (lv : Nat) (h : lv ∉ H) :
    groupOf H lv = [] := by
  rw [groupOf, List.filter_eq_nil_iff]
  intro i hi
  simp only [beq_iff_eq]
  intro heq
  exact h (heq ▸ getD_mem_of_lt H i (List.mem_range.1 hi))

/-- Appending one value to the history extends its own group by the new
position and leaves every other group unchanged. -/
theorem groupOf_append (H : List Nat) (l lv : Nat) :
    groupOf (H ++ [l]) lv =
      groupOf H lv ++ (if lv = l then [H.length] else []) := by
  rw [groupOf, groupOf, List.length_append, List.length_singleton, List.range_succ,
    List.filter_append]
  congr 1
  · refine List.filter_congr ?_
    intro i hi
    rw [List.getD_append H [l] 0 i (List.mem_range.1 hi)]
  · have hlast : (H ++ [l]).getD H.length 0 = l := by
      rw [List.getD_eq_getElem?_getD, List.getElem?_append_right (Nat.le_refl _)]
      simp
    rw [List.filter_singleton, hlast]
    by_cases hv : lv = l
    · subst hv
      simp
    · have hbeq : (l == lv) = false := by
        rw [beq_eq_false_iff_ne]
        exact fun h => hv h.symm
      rw [if_neg hv, hbeq, cond_false]

theorem addIndex_keys (gs : List (Nat × List Nat)) (l idx : Nat) :
    (addIndex gs l idx).map Prod.fst =
      if l ∈ gs.map Prod.fst then gs.map Prod.fst else gs.map Prod.fst ++ [l] := by
  induction gs with
  | nil => simp [addIndex]
  | cons g rest ih =>
    obtain ⟨k, is0⟩ := g
    rw [addIndex]
    by_cases hk : k = l
    · subst hk
      simp
    · rw [if_neg hk]
      simp only [List.map_cons, List.mem_cons]
      rw [ih]
      by_cases hmem : l ∈ rest.map Prod.fst
      · rw [if_pos hmem, if_pos (Or.inr hmem)]
      · rw [if_neg hmem, if_neg (by rintro (h | h); exact hk h.symm; exact hmem h)]
        simp

theorem addIndex_cases (gs : List (Nat × List Nat)) (l idx : Nat)
    (hnd : (gs.map Prod.fst).Nodup) :
    ∀ g2 ∈ addIndex gs l idx,
      (g2 ∈ gs ∧ g2.1 ≠ l) ∨
      (∃ is, (l, is) ∈ gs ∧ g2 = (l, is ++ [idx])) ∨
      (l ∉ gs.map Prod.fst ∧ g2 = (l, [idx])) := by
  induction gs with
  | nil =>
    intro g2 hg2
    rw [addIndex, List.mem_singleton] at hg2
    exact Or.inr (Or.inr ⟨by simp, hg2⟩)
  | cons g rest ih =>
    obtain ⟨k, is0⟩ := g
    simp only [List.map_cons, List.nodup_cons] at hnd
    intro g2 hg2
    rw [addIndex] at hg2
    by_cases hk : k = l
    · subst hk
      rw [if_pos rfl, List.mem_cons] at hg2
      rcases hg2 with hg2 | hg2
      · exact Or.inr (Or.inl ⟨is0, List.mem_cons_self _ _, hg2⟩)
      · refine Or.inl ⟨List.mem_cons_of_mem _ hg2, ?_⟩
        intro hcontra
        exact hnd.1 (hcontra ▸ List.mem_map_of_mem Prod.fst hg2)
    · rw [if_neg hk, List.mem_cons] at hg2
      rcases hg2 with hg2 | hg2
      · exact Or.inl ⟨by rw [hg2]; exact List.mem_cons_self _ _, by rw [hg2]; exact hk⟩
      · rcases ih hnd.2 g2 hg2 with h | ⟨is, his, heq⟩ | ⟨hnm, heq⟩
        · exact Or.inl ⟨List.mem_cons_of_mem _ h.1, h.2⟩
        · exact Or.inr (Or.inl ⟨is, List.mem_cons_of_mem _ his, heq⟩)
        · refine Or.inr (Or.inr ⟨?_, heq⟩)
          simp only [List.map_cons, List.mem_cons, not_or]
          exact ⟨fun h => hk h.symm, hnm⟩

/-- One step of the group-building loop preserves the invariant. -/
theorem addIndex_inv (H : List Nat) (gs : List (Nat × List Nat)) (l : Nat)
    (hinv : GroupsInv H gs) : GroupsInv (H ++ [l]) (addIndex gs l H.length) := by
  obtain ⟨hnd, hkeys, hcontent⟩ := hinv
  refine ⟨?_, ?_, ?_⟩
  · rw [addIndex_keys]
    split
    · exact hnd
    · rename_i hnm
      rw [List.nodup_append]
      exact ⟨hnd, List.nodup_singleton l, by simp [hnm]⟩
  · intro lv
    rw [addIndex_keys]
    split
    · rename_i hm
      rw [hkeys lv, List.mem_append, List.mem_singleton]
      constructor
      · exact Or.inl
      · rintro (h | h)
        · exact h
        · subst h
          rw [← hkeys lv]
          exact hm
    · rw [List.mem_append, List.mem_singleton, List.mem_append, List.mem_singleton,
        hkeys lv]
  · intro g2 hg2
    rcases addIndex_cases gs l H.length hnd g2 hg2 with
      ⟨hm, hne⟩ | ⟨is, his, heq⟩ | ⟨hnm, heq⟩
    · rw [hcontent g2 hm, groupOf_append, if_neg hne, List.append_nil]
    · rw [heq]
      simp only
      rw [groupOf_append, if_pos rfl]
      have := hcontent (l, is) his
      simp only at this
      rw [this]
    · rw [heq]
      simp only
      rw [groupOf_append, if_pos rfl, groupOf_not_mem H l (by rw [← hkeys l]; exact hnm)]
      rfl

theorem buildGroupsAux_inv : ∀ (rest H : List Nat) (gs : List (Nat × List Nat)),
    GroupsInv H gs →
    GroupsInv (H ++ rest) (buildGroupsAux rest H.length gs)
  | [], H, gs, hinv => by
    rw [buildGroupsAux, List.append_nil]
    exact hinv
  | l :: rest, H, gs, hinv => by
    rw [buildGroupsAux]
    have hstep := addIndex_inv H gs l hinv
    have hlen : H.length + 1 = (H ++ [l]).length := by
      rw [List.length_append, List.length_singleton]
    rw [hlen]
    have hres := buildGroupsAux_inv rest (H ++ [l]) (addIndex gs l H.length) hstep
    rwa [List.append_assoc, List.singleton_append] at hres

theorem buildGroups_inv (lengths : List Nat) :
    GroupsInv lengths (buildGroups lengths) := by
  have h := buildGroupsAux_inv lengths [] [] ⟨by simp, by simp, by simp⟩
  rwa [List.nil_append] at h

end TruckSched

namespace TruckSched

theorem pairGroup_flatten : ∀ g : List Nat,
    (pairGroup g).1.flatMap (fun p => [p.1, p.2]) ++ (pairGroup g).2 = g
  | [] => rfl
  | [i] => rfl
  | i :: j :: rest => by
    have ih := pairGroup_flatten rest
    rw [pairGroup]
    simp only [List.flatMap_cons, List.cons_append, List.nil_append,
      List.append_assoc]
    rw [ih]

theorem pairGroup_lengths : ∀ g : List Nat,
    (pairGroup g).1.length = g.length / 2 ∧ (pairGroup g).2.length = g.length % 2
  | [] => ⟨by decide, by decide⟩
  | [i] => ⟨by simp [pairGroup], by simp [pairGroup]⟩
  | i :: j :: rest => by
    have ih := pairGroup_lengths rest
    rw [pairGroup]
    simp only [List.length_cons]
    constructor
    · rw [ih.1]
      omega
    · rw [ih.2]
      omega

theorem pairGroup_mem_pairs : ∀ (g : List Nat) (p : Nat × Nat),
    p ∈ (pairGroup g).1 → p.1 ∈ g ∧ p.2 ∈ g
  | [], p, hp => by simp [pairGroup] at hp
  | [i], p, hp => by simp [pairGroup] at hp
  | i :: j :: rest, p, hp => by
    rw [pairGroup, List.mem_cons] at hp
    rcases hp with hp | hp
    · subst hp
      exact ⟨List.mem_cons_self _ _, List.mem_cons_of_mem _ (List.mem_cons_self _ _)⟩
    · have := pairGroup_mem_pairs rest p hp
      exact ⟨List.mem_cons_of_mem _ (List.mem_cons_of_mem _ this.1),
        List.mem_cons_of_mem _ (List.mem_cons_of_mem _ this.2)⟩

theorem pairGroup_mem_singles : ∀ (g : List Nat) (i : Nat),
    i ∈ (pairGroup g).2 → i ∈ g
  | [], i, hp => by simp [pairGroup] at hp
  | [j], i, hp => by
    rw [pairGroup, List.mem_singleton] at hp
    rw [hp]
    exact List.mem_singleton.2 rfl
  | a :: b :: rest, i, hp => by
    rw [pairGroup] at hp
    have := pairGroup_mem_singles rest i hp
    exact List.mem_cons_of_mem _ (List.mem_cons_of_mem _ this)

theorem pairGroup_fst_lt : ∀ g : List Nat, g.Pairwise (· < ·) →
    ∀ p ∈ (pairGroup g).1, p.1 < p.2
  | [], _, p, hp => by simp [pairGroup] at hp
  | [i], _, p, hp => by simp [pairGroup] at hp
  | i :: j :: rest, hsort, p, hp => by
    rw [pairGroup, List.mem_cons] at hp
    rw [List.pairwise_cons] at hsort
    rcases hp with hp | hp
    · subst hp
      exact hsort.1 j (List.mem_cons_self _ _)
    · exact pairGroup_fst_lt rest (List.pairwise_cons.1 hsort.2).2 p hp

/-- Interleaving two per-element lists of a flat map is a permutation of the
flat map of their concatenations. -/
theorem flatMap_append_perm (l : List α) (f g2 : α → List β) :
    (l.flatMap f ++ l.flatMap g2).Perm (l.flatMap (fun x => f x ++ g2 x)) := by
  induction l with
  | nil => simp
  | cons x l ih =>
    simp only [List.flatMap_cons, List.append_assoc]
    refine List.Perm.append_left (f x) ?_
    have h1 : (l.flatMap f ++ (g2 x ++ l.flatMap g2)).Perm
        (g2 x ++ (l.flatMap f ++ l.flatMap g2)) := by
      rw [← List.append_assoc, ← List.append_assoc]
      exact List.Perm.append_right (l.flatMap g2) List.perm_append_comm
    exact h1.trans (List.Perm.append_left (g2 x) ih)

theorem flatMap_congr_mem (l : List α) (f g2 : α → List β)
    (h : ∀ x ∈ l, f x = g2 x) : l.flatMap f = l.flatMap g2 := by
  induction l with
  | nil => rfl
  | cons x l ih =>
    simp only [List.flatMap_cons]
    rw [h x (List.mem_cons_self _ _), ih (fun y hy => h y (List.mem_cons_of_mem _ hy))]

theorem filter_flatMap (l : List α) (f : α → List β) (p : β → Bool) :
    (l.flatMap f).filter p = l.flatMap (fun x => (f x).filter p) := by
  induction l with
  | nil => rfl
  | cons x l ih =>
    simp only [List.flatMap_cons, List.filter_append, ih]

theorem flatMap_single_key (lv : Nat) (F : Nat × List Nat → List α) :
    ∀ (gs : List (Nat × List Nat)), (gs.map Prod.fst).Nodup →
    (∀ g ∈ gs, g.1 ≠ lv → F g = []) →
    ∀ is, (lv, is) ∈ gs → gs.flatMap F = F (lv, is)
  | [], _, _, is, hmem => by simp at hmem
  | g :: rest, hnd, hF, is, hmem => by
    simp only [List.map_cons, List.nodup_cons] at hnd
    rw [List.mem_cons] at hmem
    rcases hmem with hmem | hmem
    · subst hmem
      simp only [List.flatMap_cons]
      have hrest : rest.flatMap F = [] := by
        rw [List.flatMap_eq_nil_iff]
        intro g2 hg2
        refine hF g2 (List.mem_cons_of_mem _ hg2) ?_
        intro hcontra
        apply hnd.1
        show lv ∈ rest.map Prod.fst
        rw [← hcontra]
        exact List.mem_map.2 ⟨g2, hg2, rfl⟩
      rw [hrest, List.append_nil]
    · have hne : g.1 ≠ lv := by
        intro hcontra
        apply hnd.1
        rw [hcontra]
        exact List.mem_map.2 ⟨(lv, is), hmem, rfl⟩
      simp only [List.flatMap_cons]
      rw [hF g (List.mem_cons_self _ _) hne, List.nil_append]
      exact flatMap_single_key lv F rest hnd.2
        (fun g2 hg2 => hF g2 (List.mem_cons_of_mem _ hg2)) is hmem

theorem countP_range_getD (L : List Nat) (lv : Nat) :
    (groupOf L lv).length = L.count lv := by
  rw [groupOf]
  induction L using List.reverseRecOn with
  | nil => rfl
  | append_singleton l x ih =>
    rw [List.length_append, List.length_singleton, List.range_succ,
      List.filter_append]
    have h1 : (List.range l.length).filter (fun i => (l ++ [x]).getD i 0 == lv) =
        (List.range l.length).filter (fun i => l.getD i 0 == lv) := by
      refine List.filter_congr ?_
      intro i hi
      rw [List.getD_append l [x] 0 i (List.mem_range.1 hi)]
    have h2 : (l ++ [x]).getD l.length 0 = x := by
      rw [List.getD_eq_getElem?_getD, List.getElem?_append_right (Nat.le_refl _)]
      simp
    rw [List.length_append, h1, ih, List.count_append, List.filter_singleton, h2]
    by_cases hv : x = lv
    · subst hv
      simp
    · have hbeq : (x == lv) = false := by
        rw [beq_eq_false_iff_ne]
        exact hv
      rw [hbeq, cond_false]
      simp [List.count_cons, hbeq]

end TruckSched

namespace TruckSched

theorem group_exists (L : List Nat) (lv : Nat) (hlv : lv ∈ L) :
    (lv, groupOf L lv) ∈ buildGroups L := by
  obtain ⟨-, hkeys, hcontent⟩ := buildGroups_inv L
  have hmk : lv ∈ (buildGroups L).map Prod.fst := (hkeys lv).2 hlv
  obtain ⟨g, hg, hfst⟩ := List.mem_map.1 hmk
  obtain ⟨k, is⟩ := g
  have hk : k = lv := hfst
  subst hk
  have hc : is = groupOf L k := hcontent (k, is) hg
  rwa [← hc]

theorem pair_containers_partition (L : List Nat) :
    ((pair_containers L).1.flatMap (fun p => [p.1, p.2]) ++
      (pair_containers L).2).Perm (List.range L.length) := by
  obtain ⟨hnd, hkeys, hcontent⟩ := buildGroups_inv L
  show (((buildGroups L).flatMap (fun g => (pairGroup g.2).1)).flatMap
      (fun p => [p.1, p.2]) ++
    (buildGroups L).flatMap (fun g => (pairGroup g.2).2)).Perm (List.range L.length)
  rw [List.flatMap_assoc]
  refine (flatMap_append_perm (buildGroups L) _ _).trans ?_
  have hpt : (buildGroups L).flatMap
      (fun g => ((pairGroup g.2).1.flatMap (fun p => [p.1, p.2])) ++ (pairGroup g.2).2) =
      (buildGroups L).flatMap (fun g => g.2) :=
    flatMap_congr_mem _ _ _ (fun g _ => pairGroup_flatten g.2)
  rw [hpt]
  have hnodup : ((buildGroups L).flatMap (fun g => g.2)).Nodup := by
    rw [List.flatMap_def, List.nodup_flatten]
    constructor
    · intro l hl
      obtain ⟨g, hg, hrfl⟩ := List.mem_map.1 hl
      subst hrfl
      rw [hcontent g hg]
      exact groupOf_nodup L g.1
    · rw [List.pairwise_map]
      have hndp : (buildGroups L).Pairwise (fun g g2 => g.1 ≠ g2.1) := by
        have hnd2 : ((buildGroups L).map Prod.fst).Pairwise (· ≠ ·) := hnd
        rwa [List.pairwise_map] at hnd2
      refine hndp.imp_of_mem ?_
      intro g g2 hg hg2 hne
      intro i hi hi2
      rw [hcontent g hg] at hi
      rw [hcontent g2 hg2] at hi2
      have h1 := (mem_groupOf L g.1 i).1 hi
      have h2 := (mem_groupOf L g2.1 i).1 hi2
      exact hne (h1.2 ▸ h2.2 ▸ rfl)
  rw [List.perm_ext_iff_of_nodup hnodup (List.nodup_range L.length)]
  intro i
  rw [List.mem_flatMap, List.mem_range]
  constructor
  · rintro ⟨g, hg, hi⟩
    rw [hcontent g hg] at hi
    exact ((mem_groupOf L g.1 i).1 hi).1
  · intro hi
    have hlv : L.getD i 0 ∈ L := getD_mem_of_lt L i hi
    refine ⟨(L.getD i 0, groupOf L (L.getD i 0)), group_exists L _ hlv, ?_⟩
    exact (mem_groupOf L _ i).2 ⟨hi, rfl⟩

theorem pairs_filter_eq (L : List Nat) (lv : Nat) :
    (pair_containers L).1.filter (fun p => L.getD p.1 0 == lv) =
      (pairGroup (groupOf L lv)).1 := by
  obtain ⟨hnd, hkeys, hcontent⟩ := buildGroups_inv L
  show ((buildGroups L).flatMap (fun g => (pairGroup g.2).1)).filter
      (fun p => L.getD p.1 0 == lv) = (pairGroup (groupOf L lv)).1
  rw [filter_flatMap]
  by_cases hlv : lv ∈ L
  · have hgmem := group_exists L lv hlv
    rw [flatMap_single_key lv
      (fun g => (pairGroup g.2).1.filter (fun p => L.getD p.1 0 == lv))
      (buildGroups L) hnd ?_ (groupOf L lv) hgmem]
    · simp only
      rw [List.filter_eq_self]
      intro p hp
      have hm := (mem_groupOf L lv p.1).1 ((pairGroup_mem_pairs _ p hp).1)
      simp only [beq_iff_eq]
      exact hm.2
    · intro g hg hne
      rw [List.filter_eq_nil_iff]
      intro p hp
      have hmem := (pairGroup_mem_pairs _ p hp).1
      rw [hcontent g hg] at hmem
      have hm := (mem_groupOf L g.1 p.1).1 hmem
      simp only [beq_iff_eq]
      intro hcontra
      exact hne (by rw [← hm.2]; exact hcontra)
  · rw [groupOf_not_mem L lv hlv]
    show _ = ([] : List (Nat × Nat))
    rw [List.flatMap_eq_nil_iff]
    intro g hg
    rw [List.filter_eq_nil_iff]
    intro p hp
    have hmem := (pairGroup_mem_pairs _ p hp).1
    rw [hcontent g hg] at hmem
    have hkey := (mem_groupOf L g.1 p.1).1 hmem
    have hgl : g.1 ∈ L := (hkeys g.1).1 (List.mem_map_of_mem Prod.fst hg)
    simp only [beq_iff_eq]
    intro hcontra
    rw [hkey.2] at hcontra
    exact hlv (hcontra ▸ hgl)

theorem singles_filter_eq (L : List Nat) (lv : Nat) :
    (pair_containers L).2.filter (fun i => L.getD i 0 == lv) =
      (pairGroup (groupOf L lv)).2 := by
  obtain ⟨hnd, hkeys, hcontent⟩ := buildGroups_inv L
  show ((buildGroups L).flatMap (fun g => (pairGroup g.2).2)).filter
      (fun i => L.getD i 0 == lv) = (pairGroup (groupOf L lv)).2
  rw [filter_flatMap]
  by_cases hlv : lv ∈ L
  · have hgmem := group_exists L lv hlv
    rw [flatMap_single_key lv
      (fun g => (pairGroup g.2).2.filter (fun i => L.getD i 0 == lv))
      (buildGroups L) hnd ?_ (groupOf L lv) hgmem]
    · simp only
      rw [List.filter_eq_self]
      intro i hi
      have hm := (mem_groupOf L lv i).1 (pairGroup_mem_singles _ i hi)
      simp only [beq_iff_eq]
      exact hm.2
    · intro g hg hne
      rw [List.filter_eq_nil_iff]
      intro i hi
      have hmem := pairGroup_mem_singles _ i hi
      rw [hcontent g hg] at hmem
      have hm := (mem_groupOf L g.1 i).1 hmem
      simp only [beq_iff_eq]
      intro hcontra
      exact hne (by rw [← hm.2]; exact hcontra)
  · rw [groupOf_not_mem L lv hlv]
    show _ = ([] : List Nat)
    rw [List.flatMap_eq_nil_iff]
    intro g hg
    rw [List.filter_eq_nil_iff]
    intro i hi
    have hmem := pairGroup_mem_singles _ i hi
    rw [hcontent g hg] at hmem
    have hkey := (mem_groupOf L g.1 i).1 hmem
    have hgl : g.1 ∈ L := (hkeys g.1).1 (List.mem_map_of_mem Prod.fst hg)
    simp only [beq_iff_eq]
    intro hcontra
    rw [hkey.2] at hcontra
    exact hlv (hcontra ▸ hgl)

/-! ### Claim C4 -/

/-- C4: `pair_containers` places every input index in exactly one of pairs or
singles, counted once (the flattened pairs together with the singles are a
permutation of all indices); both indices of every pair carry equal item
lengths; pairing consumes each length group in ascending original-index order
(each pair is ordered, and the pairs and single of length `lv` are exactly the
in-order chunking of the ascending position list of `lv`); and each length
occurring `k` times yields exactly `k / 2` pairs and `k % 2` singles. -/
theorem C4_pairer_partition (L : List Nat) :
    ((pair_containers L).1.flatMap (fun p => [p.1, p.2]) ++
      (pair_containers L).2).Perm (List.range L.length) ∧
    (∀ p ∈ (pair_containers L).1, L.getD p.1 0 = L.getD p.2 0) ∧
    (∀ p ∈ (pair_containers L).1, p.1 < p.2) ∧
    (∀ lv, (pair_containers L).1.filter (fun p => L.getD p.1 0 == lv) =
      (pairGroup (groupOf L lv)).1) ∧
    (∀ lv, (pair_containers L).2.filter (fun i => L.getD i 0 == lv) =
      (pairGroup (groupOf L lv)).2) ∧
    (∀ lv, ((pair_containers L).1.filter (fun p => L.getD p.1 0 == lv)).length =
      L.count lv / 2) ∧
    (∀ lv, ((pair_containers L).2.filter (fun i => L.getD i 0 == lv)).length =
      L.count lv % 2) := by
  obtain ⟨hnd, hkeys, hcontent⟩ := buildGroups_inv L
  refine ⟨pair_containers_partition L, ?_, ?_, pairs_filter_eq L,
    singles_filter_eq L, ?_, ?_⟩
  · intro p hp
    have hp2 : p ∈ (buildGroups L).flatMap (fun g => (pairGroup g.2).1) := hp
    rw [List.mem_flatMap] at hp2
    obtain ⟨g, hg, hpg⟩ := hp2
    have hmm := pairGroup_mem_pairs _ p hpg
    rw [hcontent g hg] at hmm
    have h1 := (mem_groupOf L g.1 p.1).1 hmm.1
    have h2 := (mem_groupOf L g.1 p.2).1 hmm.2
    rw [h1.2, h2.2]
  · intro p hp
    have hp2 : p ∈ (buildGroups L).flatMap (fun g => (pairGroup g.2).1) := hp
    rw [List.mem_flatMap] at hp2
    obtain ⟨g, hg, hpg⟩ := hp2
    refine pairGroup_fst_lt g.2 ?_ p hpg
    rw [hcontent g hg]
    exact groupOf_sorted L g.1
  · intro lv
    rw [pairs_filter_eq L lv, (pairGroup_lengths (groupOf L lv)).1,
      countP_range_getD L lv]
  · intro lv
    rw [singles_filter_eq L lv, (pairGroup_lengths (groupOf L lv)).2,
      countP_range_getD L lv]

end TruckSched

namespace TruckSched

/-! ### Witnesses at concrete inputs -/

/-- Witness for C1 at a concrete input: the shipped 4-column configuration on
the test lengths of `kip.py`. -/
theorem C1_witness :
    ([6000, 6000, 8000, 8000] : List Nat).sum =
      ((Kip.MAIN_CONTAINERS.map (fun col => col.current_length)).sum +
        ([8000, 8000, 6000, 6000] : List Nat).sum) ∧
    (∀ c, c < Kip.MAIN_CONTAINERS.length →
      ([6000, 6000, 8000, 8000] : List Nat).getD c 0 ≤
        (Kip.MAIN_CONTAINERS.getD c ⟨0, 0⟩).max_length) :=
  C1_load_sums_and_capacity.2 [(0, 1), (2, 3)] [] [8000, 8000, 6000, 6000]
    Kip.MAIN_CONTAINERS [(0, 2), (1, 3), (2, 0), (3, 1)] [6000, 6000, 8000, 8000] 8000
    (by decide) (by decide) (by decide)

/-- Witness for C3 at a concrete input: one single item of length 5 on two
empty columns of capacity 5. -/
theorem C3_witness :
    (match Sleper.assign_remaining_containers [0] [5] [0, 0] 5 2 with
     | none => ∀ cand ∈ productCols 2 ([0] : List Nat).length,
         candFeasible (fun i => ([5] : List Nat).getD i 0) (fun _ => 5) [0] [0, 0] cand
           = false
     | some r => ∃ cand,
         IsFirstBest (productCols 2 ([0] : List Nat).length)
           (candFeasible (fun i => ([5] : List Nat).getD i 0) (fun _ => 5) [0] [0, 0])
           (candScore (fun i => ([5] : List Nat).getD i 0) [0] [0, 0]) cand ∧
         r = (([0] : List Nat).zip cand,
           applyAll (fun i => ([5] : List Nat).getD i 0) (([0] : List Nat).zip cand)
             [0, 0])) :=
  C3_exhaustive_single_placement.2.1 [0] [5] [0, 0] 5 2 rfl (by decide)

/-- Witness for C5 at a concrete input: the pair-first path fails on items
[4, 4, 5] at capacity 8, so the solve equals the fallback search. -/
theorem C5_witness :
    Sleper.find_optimal_assignment [(0, 1)] [2] [4, 4, 5] 8 2 =
      Sleper.fallbackSearch [4, 4, 5] 8 2 :=
  C5_fallback_permutation_search.1 [(0, 1)] [2] [4, 4, 5] 8 2 (by decide)

/-- Witness for C6 at a concrete input. -/
theorem C6_witness :
    Sleper.find_optimal_assignment [(0, 1)] [2] [2000, 2000, 2000] 7100 2 = none ∨
    ∃ asg hts m,
      Sleper.find_optimal_assignment [(0, 1)] [2] [2000, 2000, 2000] 7100 2 =
        some (asg, hts, m) ∧
      (asg.map Prod.fst).Perm (List.range ([2000, 2000, 2000] : List Nat).length) :=
  C6_total_or_failure.1 [(0, 1)] [2] [2000, 2000, 2000] 7100 2 (by decide) (by decide)

/-- Witness for C8 at a concrete input (the spec's two-column scenario). -/
theorem C8_witness :
    ([4000, 2000] : List Nat).length = 2 ∧
    (∀ c, c < 2 → ([4000, 2000] : List Nat).getD c 0 =
      ((([(0, 0), (1, 1), (2, 0)] : List (Nat × Nat)).filter (fun p => p.2 == c)).map
        (fun p => ([2000, 2000, 2000] : List Nat).getD p.1 0)).sum) ∧
    (4000 : Nat) = maxList [4000, 2000] :=
  C8_result_projection.1 [(0, 1)] [2] [2000, 2000, 2000] 7100 2
    [(0, 0), (1, 1), (2, 0)] [4000, 2000] 4000 (by decide) (by decide)

end TruckSched
